import Mathlib

/-!
Verification development for the `config_dz` configuration-to-TOML converter
(`src/config_converter.py`).  The Python pipeline is embedded shallowly:

* text is processed as `String` / `List Char`; Python's line splitting,
  stripping, substring tests and slicing are modelled by executable char-level
  functions;
* Python's dynamically typed values (`str`, `int`, `float`, `bool`, `list`,
  `dict`) become the tagged type `CV`; a Python `dict` is an ordered
  association list with last-write-wins insertion (`dinsert`), as Python
  preserves insertion order and overwriting a key keeps its position;
* the two regular expressions of `ConfigParser.parse` are modelled by
  dedicated scanners (`findDefinesF`, `defineSubF`) that implement the
  leftmost, non-overlapping, greedy-with-backtracking semantics of those two
  concrete patterns;
* loops with an index over a fixed line list become recursion over the
  remaining suffix of lines, with a fuel argument large enough for every
  input (each recursive call strictly shrinks the remaining suffix, and fuel
  `length + 1` maintains the invariant `fuel ≥ remaining + 1`);
* Python `float` values are kept as their source literal (`CV.vFloat raw`);
  IEEE rounding and Python's float `repr` normalisation are not modelled, and
  no theorem below depends on float rendering;
* Python's Unicode niceties (`str.strip` removing NEL/NBSP, `str.isdigit` on
  non-ASCII digits, `str.lower` beyond ASCII) are modelled over their ASCII
  behaviour, which is what every claim exercises.
-/

namespace ConfigDz

/-- Tagged configuration values, mirroring the dynamic values the Python code
builds.  `vStr` covers both quoted strings and bare identifiers: the source
has a single `str` type for both (the spec's `Identifier` is a `str` in the
code).  `vDict` is an ordered mapping with unique keys maintained by
`dinsert`. -/
inductive CV where
  | vStr : String → CV
  | vInt : Int → CV
  | vFloat : String → CV
  | vBool : Bool → CV
  | vArr : List CV → CV
  | vDict : List (String × CV) → CV

/-- An ordered Python `dict` from keys to configuration values. -/
abbrev Table := List (String × CV)

/-! ### Character-level helpers (Python string primitives) -/

/-- Python whitespace for `str.strip` and `re`'s `\s` (ASCII part). -/
def isPyWs (c : Char) : Bool :=
  c = ' ' || c = '\t' || c = '\n' || c = '\r' || c = '\x0b' || c = '\x0c'

def isDigitC (c : Char) : Bool := '0' ≤ c && c ≤ '9'

def isLowerC (c : Char) : Bool := 'a' ≤ c && c ≤ 'z'

/-- Characters allowed after the first one in a `define` name: `[a-z0-9_]`. -/
def isNameC (c : Char) : Bool := isLowerC c || isDigitC c || c = '_'

/-- ASCII lowercasing, as used by Python's `str.lower` on the inputs at hand. -/
def lowerC (c : Char) : Char :=
  if 'A' ≤ c && c ≤ 'Z' then Char.ofNat (c.toNat + 32) else c

/-- The character `{` (written by code point to keep string literals plain). -/
def lcur : Char := Char.ofNat 123

/-- The character `}`. -/
def rcur : Char := Char.ofNat 125

def stripLeadC (l : List Char) : List Char := l.dropWhile (fun c => isPyWs c)

/-- Python `str.rstrip()`. -/
def rstripC (l : List Char) : List Char := (stripLeadC l.reverse).reverse

/-- Python `str.strip()`. -/
def stripC (l : List Char) : List Char := rstripC (stripLeadC l)

def pyStrip (s : String) : String := String.mk (stripC s.data)

/-- Python `text.split('\n')`. -/
def splitNlC : List Char → List (List Char)
  | [] => [[]]
  | c :: rest =>
    if c = '\n' then [] :: splitNlC rest
    else
      match splitNlC rest with
      | [] => [[c]]
      | h :: t => (c :: h) :: t

/-- Python `'\n'.join(...)` on char lists. -/
def joinNlC : List (List Char) → List Char
  | [] => []
  | [l] => l
  | l :: ls => l ++ '\n' :: joinNlC ls

/-- Python `'\n'.join(lines)` on strings. -/
def joinNl (ls : List String) : String := String.mk (joinNlC (ls.map String.data))

/-- Truncation of a line at its first `#`, as in `ConfigParser.clean_text`
(`line[:line.index('#')]` when present, the whole line otherwise). -/
def truncHashC (l : List Char) : List Char := l.takeWhile (fun c => c ≠ '#')

def cleanLineC (l : List Char) : List Char := rstripC (truncHashC l)

/-- Model of `ConfigParser.clean_text`: per line, truncate at `#`, right-strip,
drop empty lines, rejoin with newlines. -/
def cleanC (l : List Char) : List Char :=
  joinNlC (((splitNlC l).map cleanLineC).filter (fun x => x ≠ []))

def clean_text (s : String) : String := String.mk (cleanC s.data)

/-! ### Table (Python dict) operations -/

/-- Python `d[k]` lookup (first, i.e. unique, occurrence of a key). -/
def lookupT : Table → String → Option CV
  | [], _ => none
  | (k, v) :: rest, key => if k = key then some v else lookupT rest key

/-- Python `k in d`. -/
def containsKey (d : Table) (k : String) : Bool := (lookupT d k).isSome

/-- Python `d[k] = v`: overwrite in place (keeping the key's position) or
append at the end. -/
def dinsert : Table → String → CV → Table
  | [], k, v => [(k, v)]
  | (k0, v0) :: rest, k, v =>
    if k0 = k then (k0, v) :: rest else (k0, v0) :: dinsert rest k v

/-! ### The two `define` regular expressions

`ConfigParser.parse` first runs
`re.finditer(r'\(define\s+([a-z][a-z0-9_]*)\s+([^);]+)\)\s*;?', text, re.DOTALL)`
to collect constants, then
`re.sub(r'\(define[^)]*\)\s*;?', '', text)` to delete the forms.  Both are
modelled as explicit scanners.  For these patterns greedy matching with
backtracking reduces to `takeWhile`/`dropWhile` runs:

* `\s+` before the name must be followed by `[a-z]`, and a shorter whitespace
  run would leave a whitespace character there, so the maximal run is the only
  candidate;
* `[^);]+\)` takes the maximal run of characters other than `)`/`;` and then
  requires `)` — any shorter run would leave a non-`)` character next;
* the only genuine backtracking point: when the maximal `[^);]+` run after the
  second `\s+` is empty and the next character is `)`, the engine shortens the
  whitespace run by one so that `[^);]+` can capture that final whitespace
  character (possible only when the run has length ≥ 2);
* `\s*;?` after `)` greedily consumes whitespace and then an optional `;`.
-/

def isPrefixOfC : List Char → List Char → Bool
  | [], _ => true
  | _ :: _, [] => false
  | a :: as, b :: bs => a = b && isPrefixOfC as bs

/-- The literal `(define` that opens both patterns. -/
def defineKw : List Char := ['(', 'd', 'e', 'f', 'i', 'n', 'e']

/-- Consumption of the trailing `\s*;?` of both patterns. -/
def eatSemiTail (r : List Char) : List Char :=
  match r.dropWhile (fun c => isPyWs c) with
  | ';' :: r2 => r2
  | r2 => r2

/-- The extraction pattern after its `\(define` literal: `\s+` name `\s+`
`([^);]+)` `\)` `\s*;?`.  Returns (name, raw group 2, rest of the text). -/
def matchDefineTail (r : List Char) : Option (List Char × List Char × List Char) :=
  let w1 := r.takeWhile (fun c => isPyWs c)
  let r1 := r.dropWhile (fun c => isPyWs c)
  if w1 = [] then none
  else
    match r1 with
    | [] => none
    | c :: _ =>
      if isLowerC c then
        let name := r1.takeWhile (fun ch => isNameC ch)
        let r2 := r1.dropWhile (fun ch => isNameC ch)
        let w2 := r2.takeWhile (fun ch => isPyWs ch)
        let r3 := r2.dropWhile (fun ch => isPyWs ch)
        if w2 = [] then none
        else
          let content := r3.takeWhile (fun ch => ch ≠ ')' && ch ≠ ';')
          let r4 := r3.dropWhile (fun ch => ch ≠ ')' && ch ≠ ';')
          match r4 with
          | ')' :: r5 =>
            if content ≠ [] then some (name, content, eatSemiTail r5)
            else if 2 ≤ w2.length then some (name, [w2.getLastD ' '], eatSemiTail r5)
            else none
          | _ => none
      else none

/-- Attempted match of the extraction pattern at the head of `l`. -/
def matchDefineAt (l : List Char) : Option (List Char × List Char × List Char) :=
  if isPrefixOfC defineKw l then matchDefineTail (l.drop 7) else none

/-- Model of `re.finditer` with the extraction pattern: scan left to right,
emit each leftmost non-overlapping match, resume after its end.  Any
successful match consumes at least the `(define` literal, so fuel
`length + 1` never runs out. -/
def findDefinesF : Nat → List Char → List (List Char × List Char)
  | 0, _ => []
  | _ + 1, [] => []
  | f + 1, c :: rest =>
    match matchDefineAt (c :: rest) with
    | some (n, v, after) => (n, v) :: findDefinesF f after
    | none => findDefinesF f rest

def findDefinesC (l : List Char) : List (List Char × List Char) :=
  findDefinesF (l.length + 1) l

/-- Attempted match of the deletion pattern `\(define[^)]*\)\s*;?` at the head
of `l`; on success returns the text after the match. -/
def matchSubAt (l : List Char) : Option (List Char) :=
  if isPrefixOfC defineKw l then
    let r := l.drop 7
    let r1 := r.dropWhile (fun c => c ≠ ')')
    match r1 with
    | ')' :: r2 => some (eatSemiTail r2)
    | _ => none
  else none

/-- Model of `re.sub(r'\(define[^)]*\)\s*;?', '', text)`. -/
def defineSubF : Nat → List Char → List Char
  | 0, l => l
  | _ + 1, [] => []
  | f + 1, c :: rest =>
    match matchSubAt (c :: rest) with
    | some after => defineSubF f after
    | none => c :: defineSubF f rest

def defineSubC (l : List Char) : List Char := defineSubF (l.length + 1) l

/-! ### `ConfigParser.parse_value` -/

def headIs (s : String) (c : Char) : Bool := s.data.head? = some c

def lastIs (s : String) (c : Char) : Bool := s.data.getLast? = some c

/-- Python `value_str.startswith('"') and value_str.endswith('"')` (or both
single quotes).  Note there is no length-2 requirement: a one-character quote
satisfies both tests. -/
def quotedOuterB (s : String) : Bool :=
  (headIs s '"' && lastIs s '"') || (headIs s '\'' && lastIs s '\'')

/-- Python `str.isdigit` (ASCII): nonempty and all digits. -/
def isDigitsB (s : String) : Bool := s.data ≠ [] && s.data.all (fun c => isDigitC c)

def lowerS (s : String) : String := String.mk (s.data.map lowerC)

def floatBody (l : List Char) : Bool :=
  let ds := l.takeWhile (fun c => isDigitC c)
  let r := l.dropWhile (fun c => isDigitC c)
  ds ≠ [] &&
    match r with
    | '.' :: r2 => r2 ≠ [] && r2.all (fun c => isDigitC c)
    | _ => false

/-- Python `re.match(r'^-?\d+\.\d+$', value_str)` (as a full-token test; every
token reaching this check has been stripped, so the `$`-before-final-newline
quirk cannot fire). -/
def isFloatB (s : String) : Bool :=
  match s.data with
  | '-' :: rest => floatBody rest
  | l => floatBody l

def arrOuterB (s : String) : Bool := headIs s lcur && lastIs s rcur

def endsSemiB (s : String) : Bool := lastIs s ';'

/-- Python `s[1:-1]`. -/
def dropEnds (s : String) : String := String.mk ((s.data.drop 1).dropLast)

/-- Python `s[:-1]`. -/
def dropLastS (s : String) : String := String.mk s.data.dropLast

/-- Python `int(...)` on a digit string. -/
def digitsToNat (l : List Char) : Nat := l.foldl (fun a c => 10 * a + (c.toNat - 48)) 0

/-- The quote-aware, brace-depth-aware comma splitter of the array branch of
`parse_value`, state for state: (`in_quotes`, `quote_char`, `brace_count`,
`current`, `items`).  Items are returned as the raw `current` strings; the
caller strips and parses them, exactly as
`items.append(self.parse_value(current.strip()))` does. -/
def splitItemsGo : List Char → Bool → Option Char → Int → List Char →
    List (List Char) → List (List Char)
  | [], _, _, _, cur, items => if stripC cur ≠ [] then items ++ [cur] else items
  | ch :: rest, inq, qc, bc, cur, items =>
    if (ch = '\'' || ch = '"') && !inq then
      splitItemsGo rest true (some ch) bc (cur ++ [ch]) items
    else if some ch = qc && inq then
      splitItemsGo rest false none bc (cur ++ [ch]) items
    else if ch = lcur && !inq then
      splitItemsGo rest inq qc (bc + 1) (cur ++ [ch]) items
    else if ch = rcur && !inq then
      splitItemsGo rest inq qc (bc - 1) (cur ++ [ch]) items
    else if ch = ',' && !inq && bc = 0 then
      splitItemsGo rest inq qc bc [] (items ++ [cur])
    else
      splitItemsGo rest inq qc bc (cur ++ [ch]) items

def splitItemsC (content : List Char) : List (List Char) :=
  splitItemsGo content false none 0 [] []

/-- Model of `ConfigParser.parse_value`, with the constant table passed
explicitly (the Python method reads `self.constants`).  Recursion happens only
in the array branch, on items at least two characters shorter than the input
(the braces are gone), so fuel `length + 1` always suffices; the fuel-0 branch
is unreachable from the wrapper `parseValueS`. -/
def parseValueF (consts : Table) : Nat → String → CV
  | 0, s => CV.vStr s
  | f + 1, s0 =>
    let s1 := pyStrip s0
    if s1 = "" then CV.vStr ""
    else
      let s := if endsSemiB s1 then pyStrip (dropLastS s1) else s1
      if quotedOuterB s then CV.vStr (dropEnds s)
      else if isDigitsB s then CV.vInt (Int.ofNat (digitsToNat s.data))
      else if isFloatB s then CV.vFloat s
      else if lowerS s = "true" then CV.vBool true
      else if lowerS s = "false" then CV.vBool false
      else if arrOuterB s then
        let content := stripC (dropEnds s).data
        if content = [] then CV.vArr []
        else
          CV.vArr ((splitItemsC content).map
            (fun it => parseValueF consts f (pyStrip (String.mk it))))
      else
        match lookupT consts s with
        | some v => v
        | none => CV.vStr s

def parseValueS (consts : Table) (s : String) : CV :=
  parseValueF consts (s.data.length + 1) s

/-! ### `ConfigParser.parse_dict` and the root loop of `ConfigParser.parse`

Both loops walk an index over a fixed line list; all accesses are at the
current index and the index only moves forward, so they are modelled as
recursion over the remaining suffix of lines.  `parseDictF` returns the
accumulated table together with the lines remaining after the block. -/

def splitFirstC (c : Char) : List Char → List Char × List Char
  | [] => ([], [])
  | x :: xs =>
    if x = c then ([], xs)
    else
      let p := splitFirstC c xs
      (x :: p.1, p.2)

/-- Python `line.split(c, 1)` (used only under a `c in line` guard). -/
def splitFirstS (s : String) (c : Char) : String × String :=
  let p := splitFirstC c s.data
  (String.mk p.1, String.mk p.2)

/-- Python `c in line` for a single character. -/
def containsC (s : String) (c : Char) : Bool := s.data.contains c

def endsWithC (s : String) (c : Char) : Bool := lastIs s c

/-- Model of `ConfigParser.parse_dict` (the Python `depth` parameter is unused
by the source and omitted).  A line equal to `}` ends the block. -/
def parseDictF (consts : Table) : Nat → List String → Table → Table × List String
  | 0, ls, acc => (acc, ls)
  | _ + 1, [], acc => (acc, [])
  | f + 1, l0 :: rest, acc =>
    let line := pyStrip l0
    if line = "" then parseDictF consts f rest acc
    else if line = "\x7d" then (acc, rest)
    else if containsC line ':' then
      if endsWithC line lcur then
        let key := pyStrip (splitFirstS line ':').1
        let r := parseDictF consts f rest []
        parseDictF consts f r.2 (dinsert acc key (CV.vDict r.1))
      else
        let p := splitFirstS line ':'
        let key := pyStrip p.1
        let vp := pyStrip p.2
        if vp = "\x7b" then
          let r := parseDictF consts f rest []
          parseDictF consts f r.2 (dinsert acc key (CV.vDict r.1))
        else
          parseDictF consts f rest (dinsert acc key (parseValueS consts vp))
    else if containsC line '=' then
      let p := splitFirstS line '='
      let key := pyStrip p.1
      let vp := pyStrip p.2
      if vp = "\x7b" then
        let r := parseDictF consts f rest []
        parseDictF consts f r.2 (dinsert acc key (CV.vDict r.1))
      else
        parseDictF consts f rest (dinsert acc key (parseValueS consts vp))
    else if endsWithC line lcur then
      let key := pyStrip (dropLastS line)
      let r := parseDictF consts f rest []
      parseDictF consts f r.2 (dinsert acc key (CV.vDict r.1))
    else parseDictF consts f rest acc

/-- Model of the root while-loop of `ConfigParser.parse` (lines 176–211 of the
source).  Unlike `parse_dict` it has no `}` case: such a line falls through
every guard and is silently skipped.  The scalar branches hand the raw
right-hand side to `parse_value` unstripped, as the source does. -/
def rootLoopF (consts : Table) : Nat → List String → Table → Table
  | 0, _, acc => acc
  | _ + 1, [], acc => acc
  | f + 1, l0 :: rest, acc =>
    let line := pyStrip l0
    if line = "" then rootLoopF consts f rest acc
    else if containsC line ':' && endsWithC line lcur then
      let key := pyStrip (splitFirstS line ':').1
      let r := parseDictF consts f rest []
      rootLoopF consts f r.2 (dinsert acc key (CV.vDict r.1))
    else if containsC line '=' && endsWithC line lcur then
      let key := pyStrip (splitFirstS line '=').1
      let r := parseDictF consts f rest []
      rootLoopF consts f r.2 (dinsert acc key (CV.vDict r.1))
    else if endsWithC line lcur then
      let key := pyStrip (dropLastS line)
      let r := parseDictF consts f rest []
      rootLoopF consts f r.2 (dinsert acc key (CV.vDict r.1))
    else if containsC line ':' then
      let p := splitFirstS line ':'
      rootLoopF consts f rest (dinsert acc (pyStrip p.1) (parseValueS consts p.2))
    else if containsC line '=' then
      let p := splitFirstS line '='
      rootLoopF consts f rest (dinsert acc (pyStrip p.1) (parseValueS consts p.2))
    else rootLoopF consts f rest acc

/-! ### The full `ConfigParser.parse` pipeline -/

/-- One step of the constant-collection loop: `self.constants[name] =
self.parse_value(match.group(2).strip())`, with `self.constants` being the
accumulator built from the earlier matches. -/
def buildConstsStep (acc : Table) (nv : List Char × List Char) : Table :=
  dinsert acc (String.mk nv.1) (parseValueS acc (pyStrip (String.mk nv.2)))

def buildConstsFrom (acc : Table) (ms : List (List Char × List Char)) : Table :=
  ms.foldl buildConstsStep acc

def cleanedOf (t : String) : String := clean_text t

/-- The constant table produced by the `finditer` loop of `parse`. -/
def constantsOf (t : String) : Table :=
  buildConstsFrom [] (findDefinesC (cleanedOf t).data)

/-- The cleansed text with every `(define ...)` form deleted by `re.sub`. -/
def strippedOf (t : String) : String := String.mk (defineSubC (cleanedOf t).data)

def linesOf (t : String) : List String := (splitNlC (strippedOf t).data).map String.mk

/-- The root table built from the data lines, before constants are folded in. -/
def rootDataOf (t : String) : Table :=
  rootLoopF (constantsOf t) ((linesOf t).length + 1) (linesOf t) []

/-- The final loop of `parse`: add each constant to the result unless its name
is already a data key. -/
def foldConsts (consts data : Table) : Table :=
  consts.foldl (fun d kv => if containsKey d kv.1 then d else dinsert d kv.1 kv.2) data

/-- Model of `ConfigParser.parse`. -/
def parseS (t : String) : Table := foldConsts (constantsOf t) (rootDataOf t)

/-! ### `TOMLConverter.escape_string` -/

/-- The `replacements` dictionary of `escape_string`, as a lookup. -/
def escRepl (c : Char) : Option String :=
  if c = '\\' then some "\\\\"
  else if c = '"' then some "\\\""
  else if c = '\n' then some "\\n"
  else if c = '\t' then some "\\t"
  else if c = '\r' then some "\\r"
  else if c = '\x08' then some "\\b"
  else if c = '\x0c' then some "\\f"
  else none

/-- Lowercase hexadecimal digit. -/
def hexDigitCh (n : Nat) : Char :=
  if n < 10 then Char.ofNat (48 + n) else Char.ofNat (87 + n)

/-- Lowercase hexadecimal digits of `n`, most significant first (`format(n,
'x')`); fuel `n + 1` always suffices. -/
def hexCore : Nat → Nat → List Char
  | 0, _ => []
  | f + 1, n => if n < 16 then [hexDigitCh n] else hexCore f (n / 16) ++ [hexDigitCh (n % 16)]

def hexChars (n : Nat) : List Char := hexCore (n + 1) n

/-- Left zero-padding to width 4, as in `f'{n:04x}'`. -/
def pad4 (l : List Char) : List Char := List.replicate (4 - l.length) '0' ++ l

/-- The per-character translation of the `escape_string` loop. -/
def escapeChar (c : Char) : String :=
  match escRepl c with
  | some r => r
  | none =>
    if c.toNat < 32 then String.mk ('\\' :: 'u' :: pad4 (hexChars c.toNat))
    else String.mk [c]

/-- Model of `TOMLConverter.escape_string`: the loop appends one translated
piece per character and joins them. -/
def escape_string (s : String) : String := String.join (s.data.map escapeChar)

/-! ### Python `str()` / `repr()` rendering, for the serializer -/

/-- Decimal digit character. -/
def digitCh (n : Nat) : Char := Char.ofNat (48 + n)

/-- Decimal digits of `n`, most significant first; fuel `n + 1` always
suffices. -/
def natDigitsCore : Nat → Nat → List Char
  | 0, _ => []
  | f + 1, n => if n < 10 then [digitCh n] else natDigitsCore f (n / 10) ++ [digitCh (n % 10)]

def natReprC (n : Nat) : List Char := natDigitsCore (n + 1) n

def natReprS (n : Nat) : String := String.mk (natReprC n)

/-- Python `str(int)`. -/
def intRepr (n : Int) : String :=
  if n < 0 then "-" ++ natReprS n.natAbs else natReprS n.toNat

/-- Left zero-padding to width 2, as in Python's `\xXX` repr escapes. -/
def pad2 (l : List Char) : List Char := List.replicate (2 - l.length) '0' ++ l

/-- Per-character escaping of Python's `repr` for strings (quote character
`q`).  Reachable only through the serializer's fallback branches for values no
parse can produce (dicts inside arrays, arrays nested three deep); modelled to
keep those branches total and honest. -/
def pyReprEscChar (q : Char) (c : Char) : List Char :=
  if c = '\\' then ['\\', '\\']
  else if c = q then ['\\', q]
  else if c = '\n' then ['\\', 'n']
  else if c = '\r' then ['\\', 'r']
  else if c = '\t' then ['\\', 't']
  else if c.toNat < 32 || c.toNat = 127 then '\\' :: 'x' :: pad2 (hexChars c.toNat)
  else [c]

/-- Python `repr` of a string: single-quoted unless the string contains a
single quote and no double quote. -/
def pyStrRepr (s : String) : String :=
  let q : Char := if s.data.contains '\'' && !(s.data.contains '"') then '"' else '\''
  String.mk (q :: (s.data.flatMap (pyReprEscChar q)) ++ [q])

mutual

/-- Python `repr` of a value (equal to `str` except on strings). -/
def pyRepr : CV → String
  | .vStr s => pyStrRepr s
  | .vInt n => intRepr n
  | .vFloat r => r
  | .vBool b => if b then "True" else "False"
  | .vArr xs => "[" ++ pyReprItems xs ++ "]"
  | .vDict d => "\x7b" ++ pyReprEntries d ++ "\x7d"

def pyReprItems : List CV → String
  | [] => ""
  | [x] => pyRepr x
  | x :: y :: xs => pyRepr x ++ ", " ++ pyReprItems (y :: xs)

def pyReprEntries : List (String × CV) → String
  | [] => ""
  | [e] => pyStrRepr e.1 ++ ": " ++ pyRepr e.2
  | e :: e2 :: es => pyStrRepr e.1 ++ ": " ++ pyRepr e.2 ++ ", " ++ pyReprEntries (e2 :: es)

end

/-- Python `str()` of a value. -/
def pyStr : CV → String
  | .vStr s => s
  | x => pyRepr x

/-! ### Key sorting (`simple_keys.sort()` / `dict_keys.sort()`)

Python sorts strings lexicographically by code point; `strLe` is that order as
a Boolean test and `SLe` its propositional form, fed to Mathlib's (stable)
`List.insertionSort`, which agrees with Python's stable sort. -/

def charsLe : List Char → List Char → Bool
  | [], _ => true
  | _ :: _, [] => false
  | a :: as, b :: bs =>
    if a < b then true
    else if b < a then false
    else charsLe as bs

def strLe (a b : String) : Bool := charsLe a.data b.data

def SLe (a b : String) : Prop := strLe a b = true

instance : DecidableRel SLe := fun a b => inferInstanceAs (Decidable (strLe a b = true))

def sortKeys (l : List String) : List String := List.insertionSort SLe l

/-! ### `TOMLConverter.to_toml` -/

def isDictV : CV → Bool
  | .vDict _ => true
  | _ => false

/-- Python `'  ' * indent`. -/
def repeatStr (s : String) : Nat → String
  | 0 => ""
  | n + 1 => s ++ repeatStr s n

/-- The sorted scalar/array-valued keys of a table (`simple_keys`). -/
def simpleKeysOf (d : Table) : List String :=
  sortKeys ((d.filter (fun e => !(isDictV e.2))).map Prod.fst)

/-- The sorted table-valued keys of a table (`dict_keys`). -/
def dictKeysOf (d : Table) : List String :=
  sortKeys ((d.filter (fun e => isDictV e.2)).map Prod.fst)

/-- Python `', '.join(items)`. -/
def commaJoin : List String → String
  | [] => ""
  | [x] => x
  | x :: y :: xs => x ++ ", " ++ commaJoin (y :: xs)

/-- Rendering of an item of an array nested inside an array
(`f'"{i}"' if isinstance(i, str) else str(i)`): note strings pass through RAW,
without `escape_string`. -/
def renderInnerItem : CV → String
  | .vStr s => "\"" ++ s ++ "\""
  | x => pyStr x

/-- Rendering of a top-level item of an array value: strings are escaped
here. -/
def renderItem : CV → String
  | .vStr s => "\"" ++ escape_string s ++ "\""
  | .vBool b => if b then "true" else "false"
  | .vInt n => intRepr n
  | .vFloat r => r
  | .vArr xs => "[" ++ commaJoin (xs.map renderInnerItem) ++ "]"
  | .vDict d => "\"" ++ pyStr (CV.vDict d) ++ "\""

/-- Rendering of the right-hand side of a `key = value` line for a non-table
value (the `vDict` case is the source's unreachable fallback
`f'{key} = "{value}"'`). -/
def renderScalar : CV → String
  | .vStr s => "\"" ++ escape_string s ++ "\""
  | .vBool b => if b then "true" else "false"
  | .vInt n => intRepr n
  | .vFloat r => r
  | .vArr xs => "[" ++ commaJoin (xs.map renderItem) ++ "]"
  | .vDict d => "\"" ++ pyStr (CV.vDict d) ++ "\""

/-- One emitted line for a scalar/array-valued key (the `getD` default is
unreachable: the key always comes from the table). -/
def simpleLineOf (d : Table) (indentStr : String) (k : String) : String :=
  indentStr ++ k ++ " = " ++ renderScalar ((lookupT d k).getD (CV.vStr ""))

mutual

/-- Nesting depth of tables inside a value, counting only `vDict` nesting
(`to_toml` recurses only into dict values). -/
def valDepth : CV → Nat
  | .vDict d => 1 + tableDepth d
  | _ => 0

def tableDepth : List (String × CV) → Nat
  | [] => 0
  | e :: es => max (valDepth e.2) (tableDepth es)

end

/-- The TOML section header line for a table-valued key. -/
def headerOf (indentStr : String) (indent : Nat) (fullPath : String) : String :=
  if indent = 0 then "[" ++ fullPath ++ "]" else indentStr ++ "[" ++ fullPath ++ "]"

/-- Python `f"{path}.{key}" if path else key`. -/
def fullPathOf (path k : String) : String := if path = "" then k else path ++ "." ++ k

/-- Model of `TOMLConverter.to_toml`: scalar lines for the sorted simple keys,
then, per sorted dict key, a section header and the (already joined) recursive
rendering as one further element, all joined with newlines.  Recursion is on
`vDict` nesting depth, so fuel `tableDepth d + 1` always suffices; the `_`
lookup fallback is unreachable (dict keys come from the table). -/
def toTomlF : Nat → Table → Nat → String → String
  | 0, _, _, _ => ""
  | f + 1, data, indent, path =>
    match data with
    | [] => ""
    | _ :: _ =>
      let indentStr := repeatStr "  " indent
      joinNl ((simpleKeysOf data).map (simpleLineOf data indentStr)
        ++ (dictKeysOf data).flatMap (fun k =>
          [headerOf indentStr indent (fullPathOf path k),
           match lookupT data k with
           | some (CV.vDict dd) => toTomlF f dd (indent + 1) (fullPathOf path k)
           | _ => ""]))

def toToml (d : Table) (indent : Nat) (path : String) : String :=
  toTomlF (tableDepth d + 1) d indent path

/-- Model of `TOMLConverter.to_toml(data)` with its default arguments, the
serialization entry point used by `convert_file`. -/
def serializeS (d : Table) : String := toToml d 0 ""

/-! ### Basic lemmas about dict operations -/

theorem data_append (a b : String) : (a ++ b).data = a.data ++ b.data := rfl

theorem lookupT_dinsert (d : Table) (k : String) (v : CV) (k2 : String) :
    lookupT (dinsert d k v) k2 = if k = k2 then some v else lookupT d k2 := by
  induction d with
  | nil =>
    simp only [dinsert, lookupT]
  | cons e rest ih =>
    obtain ⟨k0, v0⟩ := e
    by_cases h0 : k0 = k
    · subst h0
      simp only [dinsert, if_pos rfl, lookupT]
      by_cases h2 : k0 = k2 <;> simp [h2]
    · simp only [dinsert, if_neg h0, lookupT]
      by_cases h2 : k0 = k2
      · subst h2
        have hne : ¬ k = k0 := fun h => h0 h.symm
        simp [if_neg hne]
      · simp [if_neg h2, ih]

theorem containsKey_dinsert (d : Table) (k : String) (v : CV) (k2 : String) :
    containsKey (dinsert d k v) k2 = ((k = k2) || containsKey d k2) := by
  simp only [containsKey, lookupT_dinsert]
  by_cases h : k = k2 <;> simp [h]

theorem dinsert_eq_append (d : Table) (k : String) (v : CV)
    (h : containsKey d k = false) : dinsert d k v = d ++ [(k, v)] := by
  induction d with
  | nil => rfl
  | cons e rest ih =>
    obtain ⟨k0, v0⟩ := e
    simp only [containsKey, lookupT] at h
    by_cases h0 : k0 = k
    · simp [h0] at h
    · simp only [dinsert, if_neg h0, List.cons_append, List.cons.injEq, true_and]
      exact ih (by simpa [containsKey, h0] using h)

theorem lookupT_append (d1 d2 : Table) (k : String) :
    lookupT (d1 ++ d2) k = ((lookupT d1 k).or (lookupT d2 k)) := by
  induction d1 with
  | nil => simp [lookupT]
  | cons e rest ih =>
    obtain ⟨k0, v0⟩ := e
    by_cases h : k0 = k <;> simp [lookupT, h, ih]

theorem containsKey_append (d1 d2 : Table) (k : String) :
    containsKey (d1 ++ d2) k = (containsKey d1 k || containsKey d2 k) := by
  simp only [containsKey, lookupT_append]
  cases lookupT d1 k <;> simp [Option.or]

/-! ### Claim C10 — a lone quote character parses to the empty string -/

/-- C10: the matching-outer-quotes check of `parse_value` has no minimum
length, so the one-character inputs `"` and `'` each satisfy both the
starts-with and the ends-with test, are stripped from both ends by `s[1:-1]`,
and yield the empty string — never an identifier (the constant table is
irrelevant: the quote branch is tested first) and never an error. -/
theorem c10_lone_quote_empty_string (consts : Table) :
    parseValueS consts "\"" = CV.vStr "" ∧ parseValueS consts "'" = CV.vStr "" :=
  ⟨rfl, rfl⟩

/-! ### Claim C9 — a root-level `}` line does *not* terminate parsing

The spec claims the root is parsed by the `parse_block` contract (which
returns on `}`); in the source the root is a *separate* loop
(`ConfigParser.parse`, lines 176–211) with no `}` case, so a root-level `}`
falls through every guard into the silent-skip branch and the following lines
are still consumed into the root table. -/

/-- C9 counterexample: on `"a: 1\n}\nb: 2"` the claim predicts that `b` is
not consumed into the root table (the root block would terminate at `}`);
in fact parsing skips the `}` line and binds `b`. -/
theorem c9_root_brace_counterexample :
    parseS "a: 1\n\x7d\nb: 2" = [("a", CV.vInt 1), ("b", CV.vInt 2)] ∧
      lookupT (parseS "a: 1\n\x7d\nb: 2") "b" = some (CV.vInt 2) :=
  ⟨rfl, rfl⟩

/-- C9 amended: the root level is not parsed by `parse_dict`; a line whose
stripped form is exactly `}` matches none of the root loop's guards and is
silently skipped, parsing continuing with (and consuming) the following
lines.  Only nested blocks, parsed by `parse_dict`, terminate at `}`. -/
theorem c9_root_brace_skipped (consts : Table) (f : Nat) (l : String)
    (rest : List String) (acc : Table) (h : pyStrip l = "\x7d") :
    rootLoopF consts (f + 1) (l :: rest) acc = rootLoopF consts f rest acc := by
  simp only [rootLoopF, h]
  rfl

theorem c9_root_brace_skipped_witness :
    pyStrip "\x7d" = "\x7d" ∧
      rootLoopF [] 6 ["\x7d", "x: 1"] [] = rootLoopF [] 5 ["x: 1"] [] :=
  ⟨rfl, c9_root_brace_skipped [] 5 "\x7d" ["x: 1"] [] rfl⟩

/-! ### Claim C1 — the §8 end-to-end example -/

/-- The §8 end-to-end example input. -/
def c1input : String :=
  "(define port 8080)\nserver: \x7b\n  host: \"localhost\"\n  port: port\n  tags: \x7b\"a\", \"b\"\x7d\n\x7d"

/-- C1 counterexample: the pipeline output on the §8 input is not the spec's
expected text.  The final loop of `parse` folds the constant `port` into the
root table (its name is not a root data key, referenced or not), so a
root-level `port = 8080` line appears before `[server]`; moreover nested
section bodies are emitted with two-space indentation. -/
theorem c1_end_to_end_counterexample :
    serializeS (parseS c1input)
      ≠ "[server]\nhost = \"localhost\"\nport = 8080\ntags = [\"a\", \"b\"]" := by
  decide

/-- C1 amended: parse-then-serialize on the §8 input produces the root-level
`port = 8080` line first (the constant folded into the root table), then the
`[server]` section whose lines are indented by two spaces. -/
theorem c1_end_to_end_actual_output :
    serializeS (parseS c1input)
      = "port = 8080\n[server]\n  host = \"localhost\"\n  port = 8080\n  tags = [\"a\", \"b\"]" :=
  rfl

/-! ### Claim C3 — string escaping inside arrays is *not* depth-uniform

`to_toml` escapes string items of an array (line 280 of the source), but for
an array nested inside an array it renders string items as `f'"{i}"'`
(line 287) — raw, with no `escape_string`. -/

/-- C3 counterexample: a string containing a double quote inside an inner
array is emitted unescaped (the claim requires `k = [["a\"b"]]`). -/
theorem c3_nested_array_escaping_counterexample :
    serializeS [("k", CV.vArr [CV.vArr [CV.vStr "a\"b"]])] = "k = [[\"a\"b\"]]" ∧
      serializeS [("k", CV.vArr [CV.vArr [CV.vStr "a\"b"]])] ≠ "k = [[\"a\\\"b\"]]" :=
  ⟨rfl, by decide⟩

/-- C3 amended: string items at the top level of an array are escaped with
`escape_string`, but string items of an array nested within an array are
emitted raw between double quotes, for every key and every string. -/
theorem c3_array_escaping_by_depth (k s : String) :
    (serializeS [(k, CV.vArr [CV.vStr s])]).data
        = k.data ++ (" = [\"" : String).data ++ (escape_string s).data
            ++ ("\"]" : String).data ∧
      (serializeS [(k, CV.vArr [CV.vArr [CV.vStr s]])]).data
        = k.data ++ (" = [[\"" : String).data ++ s.data ++ ("\"]]" : String).data := by
  constructor <;>
    simp [serializeS, toToml, toTomlF, tableDepth, valDepth, simpleKeysOf, dictKeysOf,
      sortKeys, simpleLineOf, lookupT, renderScalar, renderItem, renderInnerItem,
      commaJoin, joinNl, joinNlC, repeatStr, pyStr, isDictV, data_append]

/-! ### Claim C4 — parse/serialize idempotence fails in general -/

/-- C4 counterexample: arrays are serialized in TOML bracket syntax, which
`parse_value` does not recognise on re-parse (it only knows brace arrays), so
the second round turns `a = [1]` into the *string* `"[1]"` and the claimed
identity fails on the valid input `a: {1}`. -/
theorem c4_idempotence_counterexample :
    serializeS (parseS "a: \x7b1\x7d") = "a = [1]" ∧
      serializeS (parseS (serializeS (parseS "a: \x7b1\x7d"))) = "a = \"[1]\"" ∧
      serializeS (parseS (serializeS (parseS "a: \x7b1\x7d")))
        ≠ serializeS (parseS "a: \x7b1\x7d") :=
  ⟨rfl, rfl, by decide⟩

/-! ### Claim C7 — `escape_string` is an independent per-character map -/

/-- The per-character escaping table exactly as the spec's §4.5 words state
it (a second definition, following the spec rather than the source, to be
compared with `escapeChar`): the seven named escapes, `\u00XX` with exactly
four lowercase hex digits for any other code point below 32, and identity
otherwise. -/
def escCharSpec (c : Char) : String :=
  if c = '\\' then "\\\\"
  else if c = '"' then "\\\""
  else if c = '\n' then "\\n"
  else if c = '\t' then "\\t"
  else if c = '\r' then "\\r"
  else if c = '\x08' then "\\b"
  else if c = '\x0c' then "\\f"
  else if c.toNat < 32 then
    String.mk ['\\', 'u', '0', '0', hexDigitCh (c.toNat / 16), hexDigitCh (c.toNat % 16)]
  else String.mk [c]

theorem pad4_hexChars_lt32 :
    ∀ t < 32, pad4 (hexChars t) = ['0', '0', hexDigitCh (t / 16), hexDigitCh (t % 16)] := by
  decide

theorem escapeChar_eq_escCharSpec (c : Char) : escapeChar c = escCharSpec c := by
  by_cases h1 : c = '\\'
  · subst h1; rfl
  by_cases h2 : c = '"'
  · subst h2; rfl
  by_cases h3 : c = '\n'
  · subst h3; rfl
  by_cases h4 : c = '\t'
  · subst h4; rfl
  by_cases h5 : c = '\r'
  · subst h5; rfl
  by_cases h6 : c = '\x08'
  · subst h6; rfl
  by_cases h7 : c = '\x0c'
  · subst h7; rfl
  have hr : escRepl c = none := by
    unfold escRepl
    simp [h1, h2, h3, h4, h5, h6, h7]
  unfold escapeChar escCharSpec
  rw [hr]
  simp only [if_neg h1, if_neg h2, if_neg h3, if_neg h4, if_neg h5, if_neg h6, if_neg h7]
  by_cases h8 : c.toNat < 32
  · rw [if_pos h8, if_pos h8, pad4_hexChars_lt32 _ h8]
  · rw [if_neg h8, if_neg h8]

/-- C7: `escape_string` maps each character of its input independently —
backslash, double quote, newline, tab, carriage return, backspace and form
feed to their named escapes, any other character below code point 32 to
`\u00XX` with exactly four lowercase hex digits, and everything else to
itself — and the output is the in-order concatenation of the per-character
translations. -/
theorem c7_escape_string_charwise (s : String) :
    escape_string s = String.join (s.data.map escCharSpec) := by
  unfold escape_string
  rw [List.map_congr_left (fun c _ => escapeChar_eq_escCharSpec c)]

/-! ### Claims C6 and C5 — parse_value precedence and define ordering -/

/-- Shared helper: when the (already stripped, semicolon-free) token fails
every literal form of `parse_value` — empty, quoted, all-digit, float,
boolean, brace array — the result is the constant table's entry when there
is one and the identifier (the token itself as a string) otherwise. -/
theorem parseValue_bare_token (consts : Table) (u : String)
    (hstrip : pyStrip u = u) (hne : u ≠ "") (hsemi : endsSemiB u = false)
    (hq : quotedOuterB u = false) (hd : isDigitsB u = false) (hf : isFloatB u = false)
    (ht : lowerS u ≠ "true") (hfl : lowerS u ≠ "false") (ha : arrOuterB u = false) :
    parseValueS consts u = (lookupT consts u).getD (CV.vStr u) := by
  unfold parseValueS
  simp only [parseValueF, hstrip, hsemi, hq, hd, hf, ha, Bool.false_eq_true, if_false,
    if_neg hne, if_neg ht, if_neg hfl]
  cases h : lookupT consts u <;> simp [h]

/-- C6: in `parse_value`, for a token that is none of the earlier forms
(empty, quoted string, all-digit integer, float, boolean, brace array),
constant lookup outranks the identifier fallback: the result is the stored
constant value when the token is a name in the table, and the token itself
as an identifier string only when no constant matches. -/
theorem c6_constant_lookup_precedence (consts : Table) (u : String)
    (hstrip : pyStrip u = u) (hne : u ≠ "") (hsemi : endsSemiB u = false)
    (hq : quotedOuterB u = false) (hd : isDigitsB u = false) (hf : isFloatB u = false)
    (ht : lowerS u ≠ "true") (hfl : lowerS u ≠ "false") (ha : arrOuterB u = false) :
    parseValueS consts u = (lookupT consts u).getD (CV.vStr u) :=
  parseValue_bare_token consts u hstrip hne hsemi hq hd hf ht hfl ha

theorem c6_constant_lookup_precedence_witness :
    parseValueS [("foo", CV.vInt 1)] "foo" = CV.vInt 1 ∧
      parseValueS [("foo", CV.vInt 1)] "bar" = CV.vStr "bar" := by
  constructor
  · exact (c6_constant_lookup_precedence [("foo", CV.vInt 1)] "foo" rfl (by decide) rfl rfl
      rfl rfl (by decide) (by decide) rfl).trans rfl
  · exact (c6_constant_lookup_precedence [("foo", CV.vInt 1)] "bar" rfl (by decide) rfl rfl
      rfl rfl (by decide) (by decide) rfl).trans rfl

/-- C5: `define` matches are processed in left-to-right order of occurrence
in the cleansed text, and the value expression of each match is parsed
against the constant table built from the *earlier* matches only.  In
particular a define whose (stripped) value is a bare token that names no
earlier define — even when it is the name of a define occurring later — is
stored as that token's identifier string, not as the later define's value. -/
theorem c5_defines_left_to_right (t : String) (pre post : List (List Char × List Char))
    (n w : List Char) (u : String)
    (hsplit : findDefinesC (cleanedOf t).data = pre ++ (n, w) :: post)
    (hu : pyStrip (String.mk w) = u)
    (hstrip : pyStrip u = u) (hne : u ≠ "") (hsemi : endsSemiB u = false)
    (hq : quotedOuterB u = false) (hd : isDigitsB u = false) (hf : isFloatB u = false)
    (ht : lowerS u ≠ "true") (hfl : lowerS u ≠ "false") (ha : arrOuterB u = false)
    (hnc : lookupT (buildConstsFrom [] pre) u = none) :
    constantsOf t
      = buildConstsFrom (dinsert (buildConstsFrom [] pre) (String.mk n) (CV.vStr u)) post := by
  unfold constantsOf buildConstsFrom
  rw [hsplit, List.foldl_append, List.foldl_cons]
  congr 1
  show buildConstsStep (buildConstsFrom [] pre) (n, w) = _
  unfold buildConstsStep
  rw [hu, parseValue_bare_token _ u hstrip hne hsemi hq hd hf ht hfl ha, hnc]
  rfl

/-- The witness input: the first define's value names the second define. -/
def c5t : String := "(define a b)\n(define b 5)"

theorem c5_defines_left_to_right_witness :
    findDefinesC (cleanedOf c5t).data = [("a".data, "b".data), ("b".data, "5".data)] ∧
      constantsOf c5t
        = buildConstsFrom (dinsert [] "a" (CV.vStr "b")) [("b".data, "5".data)] ∧
      constantsOf c5t = [("a", CV.vStr "b"), ("b", CV.vInt 5)] := by
  refine ⟨rfl, ?_, rfl⟩
  exact c5_defines_left_to_right c5t [] [("b".data, "5".data)] "a".data "b".data "b"
    rfl rfl rfl (by decide) rfl rfl rfl rfl (by decide) (by decide) rfl rfl

/-! ### Claim C2 — constants folded into the root table, data keys win -/

theorem containsKey_false_iff (d : Table) (k : String) :
    containsKey d k = false ↔ ∀ kv ∈ d, kv.1 ≠ k := by
  induction d with
  | nil => simp [containsKey, lookupT]
  | cons e rest ih =>
    obtain ⟨k0, v0⟩ := e
    by_cases h : k0 = k <;> simp [containsKey, lookupT, h, ih] at * <;> simp [h, ih]

/-- Bool check that every key of a table occurs once (the invariant Python's
`dict` maintains by construction). -/
def keysNodupB : Table → Bool
  | [] => true
  | (k, _) :: rest => !(containsKey rest k) && keysNodupB rest

theorem keysNodupB_dinsert (d : Table) (k : String) (v : CV)
    (h : keysNodupB d = true) : keysNodupB (dinsert d k v) = true := by
  induction d with
  | nil => simp [dinsert, keysNodupB, containsKey, lookupT]
  | cons e rest ih =>
    obtain ⟨k0, v0⟩ := e
    simp only [keysNodupB, Bool.and_eq_true, Bool.not_eq_true'] at h
    by_cases h0 : k0 = k
    · simp only [dinsert, if_pos h0, keysNodupB, Bool.and_eq_true, Bool.not_eq_true']
      exact h
    · simp only [dinsert, if_neg h0, keysNodupB, Bool.and_eq_true, Bool.not_eq_true',
        containsKey_dinsert]
      refine ⟨?_, ih h.2⟩
      have : ¬ k = k0 := fun hk => h0 hk.symm
      simp [this, h.1]

theorem keysNodupB_buildConstsFrom (acc : Table) (ms : List (List Char × List Char))
    (h : keysNodupB acc = true) : keysNodupB (buildConstsFrom acc ms) = true := by
  induction ms generalizing acc with
  | nil => exact h
  | cons m rest ih =>
    exact ih _ (keysNodupB_dinsert _ _ _ h)

theorem constantsOf_keysNodupB (t : String) : keysNodupB (constantsOf t) = true :=
  keysNodupB_buildConstsFrom [] _ rfl

theorem lookupT_foldConsts_skip (consts d : Table) (n : String)
    (h : ∀ kv ∈ consts, kv.1 ≠ n) : lookupT (foldConsts consts d) n = lookupT d n := by
  induction consts generalizing d with
  | nil => rfl
  | cons e rest ih =>
    obtain ⟨k, v⟩ := e
    have hk : k ≠ n := h (k, v) (List.mem_cons_self _ _)
    have hrest : ∀ kv ∈ rest, kv.1 ≠ n := fun kv hkv => h kv (List.mem_cons_of_mem _ hkv)
    show lookupT (foldConsts rest (if containsKey d k then d else dinsert d k v)) n = _
    rw [ih _ hrest]
    by_cases hc : containsKey d k
    · simp [hc]
    · simp only [hc, if_false, Bool.false_eq_true, lookupT_dinsert, if_neg hk]

theorem lookupT_foldConsts (consts d : Table) (n : String) (v : CV)
    (hnd : keysNodupB consts = true) (hl : lookupT consts n = some v) :
    lookupT (foldConsts consts d) n =
      if containsKey d n then lookupT d n else some v := by
  induction consts generalizing d with
  | nil => simp [lookupT] at hl
  | cons e rest ih =>
    obtain ⟨k, w⟩ := e
    simp only [keysNodupB, Bool.and_eq_true, Bool.not_eq_true'] at hnd
    show lookupT (foldConsts rest (if containsKey d k then d else dinsert d k w)) n = _
    by_cases hk : k = n
    · subst hk
      have hw : w = v := by simpa [lookupT] using hl
      subst hw
      have hrest : ∀ kv ∈ rest, kv.1 ≠ k :=
        (containsKey_false_iff rest k).mp hnd.1
      rw [lookupT_foldConsts_skip _ _ _ hrest]
      by_cases hc : containsKey d k
      · simp [hc]
      · simp [hc, lookupT_dinsert]
    · simp only [lookupT, if_neg hk] at hl
      rw [ih _ hnd.2 hl]
      by_cases hc : containsKey d k
      · simp [hc]
      · have hkn : ¬ k = n := hk
        simp only [hc, if_false, Bool.false_eq_true, containsKey_dinsert, lookupT_dinsert,
          if_neg hkn]
        simp [hkn]

/-- C2: after `parse` completes, every constant name `n` in the constant
table obeys: if `n` was already a key of the root table built from the data
lines, the root table keeps the data value for `n`; otherwise the constant's
value is added under `n`.  This holds for every input text and every define,
referenced or not. -/
theorem c2_constants_folded_data_precedence (t : String) (n : String) (v : CV)
    (h : lookupT (constantsOf t) n = some v) :
    lookupT (parseS t) n =
      if containsKey (rootDataOf t) n then lookupT (rootDataOf t) n else some v :=
  lookupT_foldConsts _ _ _ _ (constantsOf_keysNodupB t) h

/-- The witness input: constant `a` is shadowed by a data key, constant `b`
is not (and is not referenced anywhere). -/
def c2t : String := "(define a 1)\na: 2\n(define b 3)"

theorem c2_constants_folded_data_precedence_witness :
    lookupT (constantsOf c2t) "b" = some (CV.vInt 3) ∧
      lookupT (constantsOf c2t) "a" = some (CV.vInt 1) ∧
      lookupT (parseS c2t) "b"
        = (if containsKey (rootDataOf c2t) "b" then lookupT (rootDataOf c2t) "b"
            else some (CV.vInt 3)) ∧
      lookupT (parseS c2t) "a"
        = (if containsKey (rootDataOf c2t) "a" then lookupT (rootDataOf c2t) "a"
            else some (CV.vInt 1)) ∧
      lookupT (parseS c2t) "a" = some (CV.vInt 2) :=
  ⟨rfl, rfl, c2_constants_folded_data_precedence c2t "b" (CV.vInt 3) rfl,
    c2_constants_folded_data_precedence c2t "a" (CV.vInt 1) rfl, rfl⟩

/-! ### Claim C8 — serializer key ordering

Lemmas about the code-point lexicographic order `charsLe` (Python's string
comparison), permutation invariance of lookups on unique-key tables, and the
partition/sort structure of `to_toml`. -/

theorem charsLe_total : ∀ a b : List Char, charsLe a b = true ∨ charsLe b a = true := by
  intro a
  induction a with
  | nil => intro b; left; rfl
  | cons x xs ih =>
    intro b
    cases b with
    | nil => right; rfl
    | cons y ys =>
      rcases lt_trichotomy x y with h | h | h
      · left; simp [charsLe, h]
      · subst h
        rcases ih ys with h2 | h2
        · left; simp [charsLe, lt_irrefl, h2]
        · right; simp [charsLe, lt_irrefl, h2]
      · right; simp [charsLe, h]

theorem charsLe_trans :
    ∀ a b c : List Char, charsLe a b = true → charsLe b c = true → charsLe a c = true := by
  intro a
  induction a with
  | nil => intro b c _ _; rfl
  | cons x xs ih =>
    intro b c hab hbc
    cases b with
    | nil => simp [charsLe] at hab
    | cons y ys =>
      cases c with
      | nil => simp [charsLe] at hbc
      | cons z zs =>
        by_cases hxy : x < y
        · by_cases hyz : y < z
          · simp [charsLe, lt_trans hxy hyz]
          · by_cases hzy : z < y
            · simp [charsLe, hyz, hzy] at hbc
            · have hyz2 : y = z := le_antisymm (not_lt.mp hzy) (not_lt.mp hyz)
              subst hyz2
              simp [charsLe, hxy]
        · by_cases hyx : y < x
          · simp [charsLe, hxy, hyx] at hab
          · have hxy2 : x = y := le_antisymm (not_lt.mp hyx) (not_lt.mp hxy)
            subst hxy2
            simp only [charsLe, lt_irrefl, if_false] at hab
            by_cases hxz : x < z
            · simp [charsLe, hxz]
            · by_cases hzx : z < x
              · simp [charsLe, hxz, hzx] at hbc
              · have hxz2 : x = z := le_antisymm (not_lt.mp hzx) (not_lt.mp hxz)
                subst hxz2
                simp only [charsLe, lt_irrefl, if_false] at hbc ⊢
                exact ih _ _ hab hbc

theorem charsLe_antisymm :
    ∀ a b : List Char, charsLe a b = true → charsLe b a = true → a = b := by
  intro a
  induction a with
  | nil =>
    intro b _ h2
    cases b with
    | nil => rfl
    | cons y ys => simp [charsLe] at h2
  | cons x xs ih =>
    intro b h1 h2
    cases b with
    | nil => simp [charsLe] at h1
    | cons y ys =>
      by_cases hxy : x < y
      · simp [charsLe, hxy, lt_asymm hxy] at h2
      · by_cases hyx : y < x
        · simp [charsLe, hxy, hyx] at h1
        · have hxy2 : x = y := le_antisymm (not_lt.mp hyx) (not_lt.mp hxy)
          subst hxy2
          simp only [charsLe, lt_irrefl, if_false] at h1 h2
          rw [ih ys h1 h2]

instance : IsTotal String SLe :=
  ⟨fun a b => charsLe_total a.data b.data⟩

instance : IsTrans String SLe :=
  ⟨fun a b c h1 h2 => charsLe_trans a.data b.data c.data h1 h2⟩

instance : IsAntisymm String SLe := by
  refine ⟨fun a b h1 h2 => ?_⟩
  have h := charsLe_antisymm a.data b.data h1 h2
  cases a
  cases b
  exact congrArg String.mk h

theorem containsKey_iff_mem (d : Table) (k : String) :
    containsKey d k = true ↔ k ∈ d.map Prod.fst := by
  induction d with
  | nil => simp [containsKey, lookupT]
  | cons e rest ih =>
    obtain ⟨k0, v0⟩ := e
    by_cases h : k0 = k
    · subst h
      simp [containsKey, lookupT]
    · simp only [containsKey, lookupT, if_neg h, List.map_cons, List.mem_cons]
      constructor
      · intro hc
        exact Or.inr (ih.mp hc)
      · rintro (rfl | hm)
        · exact absurd rfl h
        · exact ih.mpr hm

theorem keysNodupB_iff (d : Table) : keysNodupB d = true ↔ (d.map Prod.fst).Nodup := by
  induction d with
  | nil => simp [keysNodupB]
  | cons e rest ih =>
    obtain ⟨k0, v0⟩ := e
    simp only [keysNodupB, Bool.and_eq_true, Bool.not_eq_true', List.map_cons,
      List.nodup_cons, ih, ← containsKey_iff_mem, Bool.not_eq_true]

theorem lookupT_none_iff (d : Table) (k : String) :
    lookupT d k = none ↔ k ∉ d.map Prod.fst := by
  rw [← containsKey_iff_mem]
  unfold containsKey
  cases lookupT d k <;> simp

theorem lookupT_some_iff (d : Table) (k : String) (v : CV)
    (hnd : (d.map Prod.fst).Nodup) : lookupT d k = some v ↔ (k, v) ∈ d := by
  induction d with
  | nil => simp [lookupT]
  | cons e rest ih =>
    obtain ⟨k0, v0⟩ := e
    simp only [List.map_cons, List.nodup_cons] at hnd
    by_cases h : k0 = k
    · subst h
      have hl : lookupT ((k0, v0) :: rest) k0 = some v0 := by simp [lookupT]
      rw [hl]
      simp only [List.mem_cons, Prod.mk.injEq, eq_self_iff_true, true_and,
        Option.some.injEq]
      constructor
      · intro hv; exact Or.inl hv.symm
      · rintro (rfl | hmem)
        · rfl
        · exact absurd (List.mem_map.mpr ⟨(k0, v), hmem, rfl⟩) hnd.1
    · simp only [lookupT, if_neg h, ih hnd.2, List.mem_cons, Prod.mk.injEq]
      constructor
      · exact fun hm => Or.inr hm
      · rintro (⟨rfl, -⟩ | hm)
        · exact absurd rfl h
        · exact hm

theorem lookupT_perm (d d2 : Table) (hp : d.Perm d2)
    (hnd : (d.map Prod.fst).Nodup) (k : String) : lookupT d2 k = lookupT d k := by
  have hnd2 : (d2.map Prod.fst).Nodup := (hp.map Prod.fst).nodup hnd
  cases hl : lookupT d k with
  | none =>
    have hm : k ∉ d.map Prod.fst := (lookupT_none_iff _ _).mp hl
    exact (lookupT_none_iff _ _).mpr fun hm2 => hm ((hp.map Prod.fst).mem_iff.mpr hm2)
  | some v =>
    exact (lookupT_some_iff _ _ _ hnd2).mpr (hp.subset ((lookupT_some_iff _ _ _ hnd).mp hl))

theorem sortKeys_eq_of_perm (l l2 : List String) (h : l.Perm l2) :
    sortKeys l = sortKeys l2 := by
  refine List.eq_of_perm_of_sorted ?_ (List.sorted_insertionSort _ _)
    (List.sorted_insertionSort _ _)
  exact (List.perm_insertionSort _ _).trans (h.trans (List.perm_insertionSort _ l2).symm)

theorem simpleKeysOf_perm (d d2 : Table) (hp : d.Perm d2) :
    simpleKeysOf d = simpleKeysOf d2 :=
  sortKeys_eq_of_perm _ _ ((hp.filter _).map _)

theorem dictKeysOf_perm (d d2 : Table) (hp : d.Perm d2) :
    dictKeysOf d = dictKeysOf d2 :=
  sortKeys_eq_of_perm _ _ ((hp.filter _).map _)

theorem tableDepth_perm (d d2 : Table) (hp : d.Perm d2) : tableDepth d = tableDepth d2 := by
  induction hp with
  | nil => rfl
  | cons x _ ih => simp [tableDepth, ih]
  | swap x y l => simp [tableDepth, max_left_comm]
  | trans _ _ ih1 ih2 => exact ih1.trans ih2

theorem toTomlF_congr (f : Nat) (d d2 : Table) (indent : Nat) (path : String)
    (hp : d.Perm d2) (hnd : (d.map Prod.fst).Nodup) :
    toTomlF f d2 indent path = toTomlF f d indent path := by
  have hlook : ∀ k, lookupT d2 k = lookupT d k := lookupT_perm d d2 hp hnd
  cases f with
  | zero => rfl
  | succ f =>
    cases d with
    | nil =>
      obtain rfl : ([] : Table) = d2 := hp.nil_eq
      rfl
    | cons b m =>
      cases d2 with
      | nil => exact absurd hp.eq_nil (by simp)
      | cons a l =>
        simp only [toTomlF]
        rw [← simpleKeysOf_perm _ _ hp, ← dictKeysOf_perm _ _ hp]
        have h1 : ∀ k ∈ simpleKeysOf (b :: m),
            simpleLineOf (a :: l) (repeatStr "  " indent) k
              = simpleLineOf (b :: m) (repeatStr "  " indent) k := by
          intro k _
          unfold simpleLineOf
          rw [hlook k]
        have h2 : (fun k =>
              [headerOf (repeatStr "  " indent) indent (fullPathOf path k),
               match lookupT (a :: l) k with
               | some (CV.vDict dd) => toTomlF f dd (indent + 1) (fullPathOf path k)
               | _ => ""])
            = (fun k =>
              [headerOf (repeatStr "  " indent) indent (fullPathOf path k),
               match lookupT (b :: m) k with
               | some (CV.vDict dd) => toTomlF f dd (indent + 1) (fullPathOf path k)
               | _ => ""]) := funext fun k => by rw [hlook k]
        rw [List.map_congr_left h1, h2]

/-- C8: at every table level of serialization, the emitted line list is the
scalar/array-valued key lines followed by the table-valued key blocks; each
of the two key groups is sorted lexicographically ascending (`SLe` is
code-point lexicographic order); and — regardless of insertion order — any
permutation of a (unique-key) table serializes to the same text. -/
theorem c8_serializer_key_ordering (d : Table) (indent : Nat) (path : String)
    (hnd : keysNodupB d = true) :
    List.Sorted SLe (simpleKeysOf d) ∧ List.Sorted SLe (dictKeysOf d) ∧
      toToml d indent path
        = (match d with
           | [] => ""
           | _ :: _ =>
             joinNl ((simpleKeysOf d).map (simpleLineOf d (repeatStr "  " indent))
               ++ (dictKeysOf d).flatMap (fun k =>
                 [headerOf (repeatStr "  " indent) indent (fullPathOf path k),
                  match lookupT d k with
                  | some (CV.vDict dd) => toTomlF (tableDepth d) dd (indent + 1) (fullPathOf path k)
                  | _ => ""]))) ∧
      ∀ d2 : Table, d.Perm d2 → toToml d2 indent path = toToml d indent path := by
  refine ⟨List.sorted_insertionSort _ _, List.sorted_insertionSort _ _, ?_, ?_⟩
  · cases d with
    | nil => rfl
    | cons e es => rfl
  · intro d2 hp
    unfold toToml
    rw [← tableDepth_perm d d2 hp]
    exact toTomlF_congr _ _ _ _ _ hp ((keysNodupB_iff d).mp hnd)

theorem c8_serializer_key_ordering_witness :
    keysNodupB [("b", CV.vInt 1), ("a", CV.vDict [("x", CV.vInt 2)]), ("c", CV.vStr "s")]
        = true ∧
      toToml [("a", CV.vDict [("x", CV.vInt 2)]), ("c", CV.vStr "s"), ("b", CV.vInt 1)] 0 ""
        = toToml [("b", CV.vInt 1), ("a", CV.vDict [("x", CV.vInt 2)]), ("c", CV.vStr "s")] 0 "" ∧
      toToml [("b", CV.vInt 1), ("a", CV.vDict [("x", CV.vInt 2)]), ("c", CV.vStr "s")] 0 ""
        = "b = 1\nc = \"s\"\n[a]\n  x = 2" := by
  refine ⟨rfl, ?_, rfl⟩
  exact (c8_serializer_key_ordering
      [("b", CV.vInt 1), ("a", CV.vDict [("x", CV.vInt 2)]), ("c", CV.vStr "s")] 0 "" rfl).2.2.2
    [("a", CV.vDict [("x", CV.vInt 2)]), ("c", CV.vStr "s"), ("b", CV.vInt 1)]
    (by
      refine List.Perm.trans (List.Perm.swap _ _ _) ?_
      exact List.Perm.cons _ (List.Perm.swap _ _ _))

/-! ### Claim C4 — infrastructure for the amended (flat-table) idempotence

Decimal rendering round-trips through the digit branch of `parse_value`;
serialized `k = n` lines survive `clean_text` and both define passes
unchanged; the root loop parses them back to the same bindings. -/

theorem digitCh_toNat : ∀ m < 10, (digitCh m).toNat = 48 + m := by decide

theorem isDigitC_digitCh : ∀ m < 10, isDigitC (digitCh m) = true := by decide

theorem natDigitsCore_ne_nil (f n : Nat) : natDigitsCore (f + 1) n ≠ [] := by
  unfold natDigitsCore
  split_ifs <;> simp

theorem natDigitsCore_mem (f : Nat) :
    ∀ n, ∀ c ∈ natDigitsCore f n, isDigitC c = true ∧ 48 ≤ c.toNat ∧ c.toNat ≤ 57 := by
  induction f with
  | zero => intro n c hc; simp [natDigitsCore] at hc
  | succ f ih =>
    intro n c hc
    unfold natDigitsCore at hc
    by_cases h : n < 10
    · rw [if_pos h] at hc
      simp only [List.mem_singleton] at hc
      subst hc
      refine ⟨isDigitC_digitCh n h, ?_⟩
      rw [digitCh_toNat n h]
      omega
    · rw [if_neg h] at hc
      rcases List.mem_append.mp hc with h1 | h2
      · exact ih _ c h1
      · simp only [List.mem_singleton] at h2
        subst h2
        have hm : n % 10 < 10 := Nat.mod_lt _ (by norm_num)
        refine ⟨isDigitC_digitCh _ hm, ?_⟩
        rw [digitCh_toNat _ hm]
        omega

theorem natDigitsCore_foldl (f : Nat) :
    ∀ n a, n < 10 ^ f → 0 < f →
      List.foldl (fun x c => 10 * x + (c.toNat - 48)) a (natDigitsCore f n)
        = a * 10 ^ (natDigitsCore f n).length + n := by
  induction f with
  | zero => intro n a _ h0; exact absurd h0 (by omega)
  | succ f ih =>
    intro n a hn _
    by_cases h : n < 10
    · unfold natDigitsCore
      rw [if_pos h]
      simp only [List.foldl_cons, List.foldl_nil, List.length_singleton, pow_one]
      rw [digitCh_toNat n h]
      omega
    · have hf : 0 < f := by
        rcases Nat.eq_zero_or_pos f with rfl | hf
        · rw [pow_one] at hn; omega
        · exact hf
      have hdiv : n / 10 < 10 ^ f := by
        rw [Nat.div_lt_iff_lt_mul (by norm_num)]
        calc n < 10 ^ (f + 1) := hn
          _ = 10 ^ f * 10 := by ring
      unfold natDigitsCore
      rw [if_neg h, List.foldl_append, ih _ a hdiv hf]
      have hm : n % 10 < 10 := Nat.mod_lt _ (by norm_num)
      simp only [List.foldl_cons, List.foldl_nil, List.length_append,
        List.length_singleton]
      rw [digitCh_toNat _ hm]
      have key : ∀ L : Nat,
          10 * (a * 10 ^ L + n / 10) + (48 + n % 10 - 48)
            = a * 10 ^ (L + 1) + (10 * (n / 10) + n % 10) := by
        intro L
        rw [pow_succ]
        ring_nf
        omega
      rw [key ((natDigitsCore f (n / 10)).length)]
      congr 1
      omega

theorem digitsToNat_natReprC (n : Nat) : digitsToNat (natReprC n) = n := by
  unfold digitsToNat natReprC
  have h1 : n < 10 ^ (n + 1) :=
    lt_of_lt_of_le (Nat.lt_pow_self (by norm_num) n)
      (Nat.pow_le_pow_right (by norm_num) (Nat.le_succ n))
  rw [natDigitsCore_foldl (n + 1) n 0 h1 (Nat.succ_pos n)]
  simp

theorem natReprC_ne_nil (n : Nat) : natReprC n ≠ [] := natDigitsCore_ne_nil n n

theorem natReprC_mem (n : Nat) :
    ∀ c ∈ natReprC n, isDigitC c = true ∧ 48 ≤ c.toNat ∧ c.toNat ≤ 57 :=
  natDigitsCore_mem (n + 1) n

theorem isPyWs_eq_false (c : Char) (h : 14 ≤ c.toNat) (h2 : c.toNat ≠ 32) :
    isPyWs c = false := by
  cases hw : isPyWs c
  · rfl
  · exfalso
    unfold isPyWs at hw
    simp only [Bool.or_eq_true, decide_eq_true_eq] at hw
    rcases hw with ((((rfl | rfl) | rfl) | rfl) | rfl) | rfl
    · exact h2 rfl
    · exact absurd h (by decide)
    · exact absurd h (by decide)
    · exact absurd h (by decide)
    · exact absurd h (by decide)
    · exact absurd h (by decide)

theorem stripLeadC_cons_of_not_ws (c : Char) (l : List Char) (h : isPyWs c = false) :
    stripLeadC (c :: l) = c :: l := by
  simp [stripLeadC, List.dropWhile_cons, h]

theorem stripLeadC_cons_of_ws (c : Char) (l : List Char) (h : isPyWs c = true) :
    stripLeadC (c :: l) = stripLeadC l := by
  simp [stripLeadC, List.dropWhile_cons, h]

theorem rstripC_concat_of_not_ws (l : List Char) (c : Char) (h : isPyWs c = false) :
    rstripC (l ++ [c]) = l ++ [c] := by
  unfold rstripC
  rw [List.reverse_append]
  simp only [List.reverse_singleton, List.singleton_append]
  rw [stripLeadC_cons_of_not_ws c _ h]
  simp

theorem rstripC_concat_of_ws (l : List Char) (c : Char) (h : isPyWs c = true) :
    rstripC (l ++ [c]) = rstripC l := by
  unfold rstripC
  rw [List.reverse_append]
  simp only [List.reverse_singleton, List.singleton_append]
  rw [stripLeadC_cons_of_ws c _ h]

theorem exists_concat_of_getLast? (l : List Char) (c : Char)
    (h : l.getLast? = some c) : ∃ l2, l = l2 ++ [c] :=
  ⟨l.dropLast, (List.dropLast_append_getLast? c (Option.mem_def.mpr h)).symm⟩

theorem rstripC_eq_self (l : List Char) (c : Char) (h : l.getLast? = some c)
    (hw : isPyWs c = false) : rstripC l = l := by
  obtain ⟨l2, rfl⟩ := exists_concat_of_getLast? l c h
  exact rstripC_concat_of_not_ws l2 c hw

theorem stripC_eq_self (l : List Char) (c1 c2 : Char) (h1 : l.head? = some c1)
    (hw1 : isPyWs c1 = false) (h2 : l.getLast? = some c2) (hw2 : isPyWs c2 = false) :
    stripC l = l := by
  cases l with
  | nil => simp at h1
  | cons a as =>
    have ha : a = c1 := by simpa using h1
    subst ha
    unfold stripC
    rw [stripLeadC_cons_of_not_ws _ _ hw1]
    exact rstripC_eq_self _ _ h2 hw2

theorem stripC_cons_ws (c : Char) (l : List Char) (h : isPyWs c = true) :
    stripC (c :: l) = stripC l := by
  unfold stripC
  rw [stripLeadC_cons_of_ws _ _ h]

theorem truncHashC_eq_self (l : List Char) (h : ∀ c ∈ l, c ≠ '#') :
    truncHashC l = l :=
  List.takeWhile_eq_self_iff.mpr (fun c hc => decide_eq_true (h c hc))

theorem mem_joinNlC (ls : List (List Char)) (c : Char) (h : c ∈ joinNlC ls) :
    c = '\n' ∨ ∃ l ∈ ls, c ∈ l := by
  induction ls with
  | nil => simp [joinNlC] at h
  | cons l ls ih =>
    cases ls with
    | nil => exact Or.inr ⟨l, by simp, by simpa [joinNlC] using h⟩
    | cons l2 ls2 =>
      rw [show joinNlC (l :: l2 :: ls2) = l ++ '\n' :: joinNlC (l2 :: ls2) from rfl] at h
      rcases List.mem_append.mp h with h1 | h2
      · exact Or.inr ⟨l, by simp, h1⟩
      · rcases List.mem_cons.mp h2 with rfl | h3
        · exact Or.inl rfl
        · rcases ih h3 with h4 | ⟨l3, hl3, hc3⟩
          · exact Or.inl h4
          · exact Or.inr ⟨l3, by simp [hl3], hc3⟩

theorem splitNlC_no_nl (l : List Char) (h : ∀ c ∈ l, c ≠ '\n') : splitNlC l = [l] := by
  induction l with
  | nil => rfl
  | cons c rest ih =>
    have hc : c ≠ '\n' := h c (by simp)
    unfold splitNlC
    rw [if_neg hc, ih (fun x hx => h x (by simp [hx]))]

theorem splitNlC_append_nl (l r : List Char) (h : ∀ c ∈ l, c ≠ '\n') :
    splitNlC (l ++ '\n' :: r) = l :: splitNlC r := by
  induction l with
  | nil =>
    rw [List.nil_append]
    conv_lhs => simp only [splitNlC]
    simp
  | cons c cs ih =>
    have hc : c ≠ '\n' := h c (by simp)
    rw [List.cons_append]
    conv_lhs => simp only [splitNlC]
    rw [if_neg hc, ih (fun x hx => h x (by simp [hx]))]

theorem splitNlC_joinNlC (ls : List (List Char)) (h0 : ls ≠ [])
    (h : ∀ l ∈ ls, ∀ c ∈ l, c ≠ '\n') : splitNlC (joinNlC ls) = ls := by
  induction ls with
  | nil => exact absurd rfl h0
  | cons l ls ih =>
    cases ls with
    | nil => exact splitNlC_no_nl l (h l (by simp))
    | cons l2 ls2 =>
      rw [show joinNlC (l :: l2 :: ls2) = l ++ '\n' :: joinNlC (l2 :: ls2) from rfl,
        splitNlC_append_nl l _ (h l (by simp)),
        ih (by simp) (fun x hx c hc => h x (by simp [hx]) c hc)]

theorem cleanC_joinNlC (ls : List (List Char)) (h0 : ls ≠ [])
    (h : ∀ l ∈ ls, l ≠ [] ∧ (∀ c ∈ l, c ≠ '\n') ∧ cleanLineC l = l) :
    cleanC (joinNlC ls) = joinNlC ls := by
  unfold cleanC
  rw [splitNlC_joinNlC ls h0 (fun l hl => (h l hl).2.1),
    List.map_congr_left (fun l hl => (h l hl).2.2), List.map_id',
    List.filter_eq_self.mpr (fun l hl => decide_eq_true (h l hl).1)]

theorem isPrefixOfC_defineKw_false (l : List Char) (h : ∀ c ∈ l, c ≠ '(') :
    isPrefixOfC defineKw l = false := by
  cases l with
  | nil => rfl
  | cons c rest =>
    have hc : c ≠ '(' := h c (by simp)
    show ((('(' : Char) = c) && isPrefixOfC _ rest) = false
    rw [decide_eq_false (fun he => hc he.symm)]
    rfl

theorem matchDefineAt_none (l : List Char) (h : ∀ c ∈ l, c ≠ '(') :
    matchDefineAt l = none := by
  unfold matchDefineAt
  rw [isPrefixOfC_defineKw_false l h]
  rfl

theorem matchSubAt_none (l : List Char) (h : ∀ c ∈ l, c ≠ '(') :
    matchSubAt l = none := by
  unfold matchSubAt
  rw [isPrefixOfC_defineKw_false l h]
  rfl

theorem findDefinesF_no_paren (f : Nat) (l : List Char) (h : ∀ c ∈ l, c ≠ '(') :
    findDefinesF f l = [] := by
  induction f generalizing l with
  | zero => rfl
  | succ f ih =>
    cases l with
    | nil => rfl
    | cons c rest =>
      unfold findDefinesF
      rw [matchDefineAt_none _ h]
      exact ih rest (fun x hx => h x (by simp [hx]))

theorem defineSubF_no_paren (f : Nat) (l : List Char) (h : ∀ c ∈ l, c ≠ '(') :
    defineSubF f l = l := by
  induction f generalizing l with
  | zero => rfl
  | succ f ih =>
    cases l with
    | nil => rfl
    | cons c rest =>
      unfold defineSubF
      rw [matchSubAt_none _ h]
      show c :: defineSubF f rest = c :: rest
      rw [ih rest (fun x hx => h x (by simp [hx]))]

theorem splitFirstC_append (c : Char) (l1 l2 : List Char) (h : ∀ x ∈ l1, x ≠ c) :
    splitFirstC c (l1 ++ c :: l2) = (l1, l2) := by
  induction l1 with
  | nil => simp [splitFirstC]
  | cons a as ih =>
    have ha : a ≠ c := h a (by simp)
    rw [List.cons_append]
    unfold splitFirstC
    rw [if_neg ha, ih (fun x hx => h x (by simp [hx]))]

theorem containsC_eq_false (s : String) (c : Char) (h : ∀ x ∈ s.data, x ≠ c) :
    containsC s c = false := by
  cases hc : containsC s c
  · rfl
  · have : c ∈ s.data := by simpa [containsC] using hc
    exact absurd rfl (h c this)

theorem containsC_eq_true (s : String) (c : Char) (h : c ∈ s.data) :
    containsC s c = true := by
  simpa [containsC] using h

theorem lastIs_eq_false (s : String) (c c2 : Char) (h : s.data.getLast? = some c)
    (hne : c ≠ c2) : lastIs s c2 = false := by
  unfold lastIs
  rw [h]
  simp [hne]

theorem headIs_eq_false (s : String) (c c2 : Char) (h : s.data.head? = some c)
    (hne : c ≠ c2) : headIs s c2 = false := by
  unfold headIs
  rw [h]
  simp [hne]

/-- A key consisting solely of lowercase ASCII letters, the key shape of the
amended C4 statement. -/
def keyOkB (k : String) : Bool :=
  (k.data ≠ []) && k.data.all (fun c => 97 ≤ c.toNat && c.toNat ≤ 122)

/-- A nonnegative integer value. -/
def valOkB : CV → Bool
  | CV.vInt n => decide (0 ≤ n)
  | _ => false

/-- The flat-table condition of the amended C4: unique lowercase-letter keys,
all values nonnegative integers. -/
def flatOkB (d : Table) : Bool :=
  keysNodupB d && d.all (fun kv => keyOkB kv.1 && valOkB kv.2)

/-- The serialized line of one flat binding. -/
def intLineOf (kv : String × Nat) : String := kv.1 ++ " = " ++ natReprS kv.2

def natOfV : CV → Nat
  | CV.vInt n => n.toNat
  | _ => 0

/-- The integer stored at a key (used to name the value a flat table holds). -/
def natAtKey (d : Table) (k : String) : Nat := natOfV ((lookupT d k).getD (CV.vStr ""))

theorem empty_append_str (s : String) : "" ++ s = s := rfl

theorem intLineOf_data (kv : String × Nat) :
    (intLineOf kv).data = (kv.1.data ++ [' ', '=', ' ']) ++ natReprC kv.2 := rfl

/-- Characters that can occur in a serialized flat line: lowercase letters,
space, `=`, digits. -/
def lineCharOk (c : Char) : Prop :=
  (97 ≤ c.toNat ∧ c.toNat ≤ 122) ∨ c.toNat = 32 ∨ c.toNat = 61 ∨
    (48 ≤ c.toNat ∧ c.toNat ≤ 57)

theorem keyOkB_chars (k : String) (h : keyOkB k = true) :
    k.data ≠ [] ∧ ∀ c ∈ k.data, 97 ≤ c.toNat ∧ c.toNat ≤ 122 := by
  unfold keyOkB at h
  simp only [Bool.and_eq_true, decide_eq_true_eq, List.all_eq_true] at h
  refine ⟨h.1, fun c hc => ?_⟩
  have h2 := h.2 c hc
  simp only [Bool.and_eq_true, decide_eq_true_eq] at h2
  exact h2

theorem intLineOf_chars (kv : String × Nat) (h : keyOkB kv.1 = true) :
    ∀ c ∈ (intLineOf kv).data, lineCharOk c := by
  intro c hc
  rw [intLineOf_data] at hc
  rcases List.mem_append.mp hc with h1 | h2
  · rcases List.mem_append.mp h1 with hk | hsep
    · exact Or.inl ((keyOkB_chars kv.1 h).2 c hk)
    · have hse : c = ' ' ∨ c = '=' := by
        simp only [List.mem_cons, List.not_mem_nil, or_false] at hsep
        tauto
      rcases hse with rfl | rfl
      · exact Or.inr (Or.inl rfl)
      · exact Or.inr (Or.inr (Or.inl rfl))
  · exact Or.inr (Or.inr (Or.inr (natReprC_mem kv.2 c h2).2))

theorem lineCharOk_ne (c : Char) (h : lineCharOk c) :
    c ≠ '\n' ∧ c ≠ '#' ∧ c ≠ '(' ∧ c ≠ ':' := by
  unfold lineCharOk at h
  refine ⟨?_, ?_, ?_, ?_⟩ <;> intro he <;> subst he <;> revert h <;> decide

theorem exists_getLast? (l : List Char) (h : l ≠ []) : ∃ c, l.getLast? = some c := by
  cases l with
  | nil => exact absurd rfl h
  | cons a as => exact ⟨(a :: as).getLast (by simp), List.getLast?_eq_getLast _ (by simp)⟩

theorem mem_of_getLast? (l : List Char) (c : Char) (h : l.getLast? = some c) : c ∈ l := by
  obtain ⟨l2, rfl⟩ := exists_concat_of_getLast? l c h
  simp

theorem ne_of_toNat_lt (c d : Char) (hc : 48 ≤ c.toNat) (hd : d.toNat < 48) : c ≠ d :=
  fun he => by rw [he] at hc; omega

theorem ne_of_toNat_gt (c d : Char) (hc : c.toNat ≤ 57) (hd : 57 < d.toNat) : c ≠ d :=
  fun he => by rw [he] at hc; omega

/-- The digit branch of `parse_value`: a token whose stripped form is the
decimal rendering of `n` parses to the integer `n` (no constant lookup, no
identifier fallback). -/
theorem parseValueS_digits (consts : Table) (s : String) (n : Nat)
    (hs : stripC s.data = natReprC n) :
    parseValueS consts s = CV.vInt (Int.ofNat n) := by
  obtain ⟨c0, tl0, hds⟩ : ∃ c0 tl0, natReprC n = c0 :: tl0 := by
    cases hd : natReprC n with
    | nil => exact absurd hd (natReprC_ne_nil n)
    | cons a b => exact ⟨a, b, rfl⟩
  have h0 := natReprC_mem n c0 (by rw [hds]; simp)
  obtain ⟨cl, hlast⟩ := exists_getLast? (natReprC n) (natReprC_ne_nil n)
  have hlmem := natReprC_mem n cl (mem_of_getLast? _ _ hlast)
  have hstrip : pyStrip s = String.mk (natReprC n) := by
    unfold pyStrip
    rw [hs]
  have hne : ¬ (String.mk (natReprC n) = "") :=
    fun he => natReprC_ne_nil n (congrArg String.data he)
  have hsemi : endsSemiB (String.mk (natReprC n)) = false :=
    lastIs_eq_false _ cl _ hlast (ne_of_toNat_gt cl ';' hlmem.2.2 (by decide))
  have hquot : quotedOuterB (String.mk (natReprC n)) = false := by
    unfold quotedOuterB
    rw [headIs_eq_false _ c0 _ (by rw [show (String.mk (natReprC n)).data = natReprC n from rfl, hds]; rfl)
        (ne_of_toNat_lt c0 '"' h0.2.1 (by decide)),
      headIs_eq_false _ c0 _ (by rw [show (String.mk (natReprC n)).data = natReprC n from rfl, hds]; rfl)
        (ne_of_toNat_lt c0 '\'' h0.2.1 (by decide))]
    rfl
  have hdig : isDigitsB (String.mk (natReprC n)) = true := by
    unfold isDigitsB
    simp only [Bool.and_eq_true, decide_eq_true_eq, List.all_eq_true]
    exact ⟨natReprC_ne_nil n, fun c hc => (natReprC_mem n c hc).1⟩
  unfold parseValueS
  simp only [parseValueF]
  rw [hstrip, if_neg hne, hsemi]
  simp only [Bool.false_eq_true, if_false]
  rw [if_neg (show ¬ quotedOuterB (String.mk (natReprC n)) = true from by
    rw [hquot]; exact Bool.false_ne_true)]
  rw [if_pos hdig]
  show CV.vInt (Int.ofNat (digitsToNat (natReprC n))) = _
  rw [digitsToNat_natReprC]

theorem containsKey_singleton (k q : String) (v : CV) :
    containsKey [(k, v)] q = decide (k = q) := by
  by_cases h : k = q <;> simp [containsKey, lookupT, h]

/-- The root loop of `parse`, run on serialized flat lines `k = n`, rebuilds
exactly the corresponding bindings (each line takes the `=`-scalar branch and
its value re-parses through the digit branch). -/
theorem rootLoopF_flat (consts : Table) (ps : List (String × Nat)) :
    ∀ acc : Table, (∀ kv ∈ ps, keyOkB kv.1 = true) →
      (∀ kv ∈ ps, containsKey acc kv.1 = false) → (ps.map Prod.fst).Nodup →
      rootLoopF consts (ps.length + 1) (ps.map intLineOf) acc
        = acc ++ ps.map (fun kv => (kv.1, CV.vInt (Int.ofNat kv.2))) := by
  induction ps with
  | nil => intro acc _ _ _; simp [rootLoopF]
  | cons kv rest ih =>
    intro acc hk hfresh hnd
    obtain ⟨k, n⟩ := kv
    have hkok : keyOkB k = true := hk (k, n) (by simp)
    have hkey := keyOkB_chars k hkok
    obtain ⟨c0, tl0, hk0⟩ : ∃ c0 tl0, k.data = c0 :: tl0 := by
      cases hdk : k.data with
      | nil => exact absurd hdk hkey.1
      | cons a b => exact ⟨a, b, rfl⟩
    have hc0 : 97 ≤ c0.toNat ∧ c0.toNat ≤ 122 := hkey.2 c0 (by rw [hk0]; simp)
    obtain ⟨ck, hcklast⟩ := exists_getLast? k.data hkey.1
    have hck : 97 ≤ ck.toNat ∧ ck.toNat ≤ 122 := hkey.2 ck (mem_of_getLast? _ _ hcklast)
    obtain ⟨cl, hlast⟩ := exists_getLast? (natReprC n) (natReprC_ne_nil n)
    have hcl := natReprC_mem n cl (mem_of_getLast? _ _ hlast)
    obtain ⟨cn0, tn0, hnds⟩ : ∃ a b, natReprC n = a :: b := by
      cases hdn : natReprC n with
      | nil => exact absurd hdn (natReprC_ne_nil n)
      | cons a b => exact ⟨a, b, rfl⟩
    have hcn0 := natReprC_mem n cn0 (by rw [hnds]; simp)
    set L := intLineOf (k, n) with hL
    have hLdata : L.data = (k.data ++ [' ', '=', ' ']) ++ natReprC n := intLineOf_data (k, n)
    have hLchars : ∀ c ∈ L.data, lineCharOk c := intLineOf_chars (k, n) hkok
    have hLhead : L.data.head? = some c0 := by
      rw [hLdata, hk0]
      rfl
    have hLlast : L.data.getLast? = some cl := by
      rw [hLdata, List.getLast?_append_of_ne_nil _ (natReprC_ne_nil n)]
      exact hlast
    have hstripL : pyStrip L = L := by
      unfold pyStrip
      rw [stripC_eq_self L.data c0 cl hLhead
        (isPyWs_eq_false c0 (by omega) (by omega))
        hLlast (isPyWs_eq_false cl (by omega) (by omega))]
    have hLne : ¬ (L = "") := by
      intro he
      have h2 := congrArg String.data he
      rw [hLdata, hk0] at h2
      simp at h2
    have hcolon : containsC L ':' = false :=
      containsC_eq_false _ _ (fun x hx => (lineCharOk_ne x (hLchars x hx)).2.2.2)
    have heq : containsC L '=' = true :=
      containsC_eq_true _ _ (by rw [hLdata]; simp)
    have hbrace : endsWithC L lcur = false := by
      unfold endsWithC
      exact lastIs_eq_false _ cl _ hLlast (ne_of_toNat_gt cl lcur hcl.2.2 (by decide))
    have hsplit : splitFirstS L '='
        = (String.mk (k.data ++ [' ']), String.mk (' ' :: natReprC n)) := by
      unfold splitFirstS
      have hre : L.data = (k.data ++ [' ']) ++ '=' :: (' ' :: natReprC n) := by
        rw [hLdata]
        simp
      rw [hre, splitFirstC_append '=' _ _ ?hne]
      case hne =>
        intro x hx
        rcases List.mem_append.mp hx with hxk | hxs
        · have hb := hkey.2 x hxk
          intro he
          rw [he] at hb
          revert hb
          decide
        · have hx2 : x = ' ' := by simpa using hxs
          subst hx2
          decide
    have hkeystrip : pyStrip (String.mk (k.data ++ [' '])) = k := by
      unfold pyStrip
      have h1 : stripC (k.data ++ [' ']) = k.data := by
        unfold stripC
        rw [hk0, List.cons_append,
          stripLeadC_cons_of_not_ws _ _ (isPyWs_eq_false c0 (by omega) (by omega)),
          ← List.cons_append, ← hk0,
          rstripC_concat_of_ws _ _ (by decide),
          rstripC_eq_self k.data ck hcklast (isPyWs_eq_false ck (by omega) (by omega))]
      rw [h1]
    have hvp : parseValueS consts (String.mk (' ' :: natReprC n)) = CV.vInt (Int.ofNat n) := by
      apply parseValueS_digits
      show stripC (' ' :: natReprC n) = natReprC n
      rw [stripC_cons_ws _ _ (by decide)]
      exact stripC_eq_self _ cn0 cl (by rw [hnds]; rfl)
        (isPyWs_eq_false cn0 (by omega) (by omega)) hlast
        (isPyWs_eq_false cl (by omega) (by omega))
    have hkey2 : pyStrip (splitFirstS L '=').1 = k := by
      rw [hsplit]
      exact hkeystrip
    have hval2 : parseValueS consts (splitFirstS L '=').2 = CV.vInt (Int.ofNat n) := by
      rw [hsplit]
      exact hvp
    simp only [List.map_cons, List.length_cons]
    simp only [rootLoopF]
    rw [hstripL, if_neg hLne, hcolon, heq, hbrace]
    simp only [Bool.false_and, Bool.and_false, Bool.false_eq_true, if_false]
    rw [hkey2, hval2, dinsert_eq_append acc k _ (hfresh (k, n) (by simp))]
    have hknotin : k ∉ rest.map Prod.fst := by
      simp only [List.map_cons, List.nodup_cons] at hnd
      exact hnd.1
    rw [ih (acc ++ [(k, CV.vInt (Int.ofNat n))])
      (fun kv2 hkv2 => hk kv2 (by simp [hkv2]))
      (fun kv2 hkv2 => by
        rw [containsKey_append, containsKey_singleton]
        have h1 : containsKey acc kv2.1 = false := hfresh kv2 (by simp [hkv2])
        have h2 : k ≠ kv2.1 := fun he => hknotin (he ▸ List.mem_map.mpr ⟨kv2, hkv2, rfl⟩)
        simp [h1, h2])
      (by simp only [List.map_cons, List.nodup_cons] at hnd; exact hnd.2)]
    simp

theorem tableDepth_eq_zero (d : Table) (h : ∀ kv ∈ d, isDictV kv.2 = false) :
    tableDepth d = 0 := by
  induction d with
  | nil => rfl
  | cons e es ih =>
    have he : isDictV e.2 = false := h e (by simp)
    have hv : valDepth e.2 = 0 := by
      cases h2 : e.2
      case vDict dd => rw [h2] at he; simp [isDictV] at he
      all_goals rfl
    simp [tableDepth, hv, ih (fun kv hkv => h kv (by simp [hkv]))]

/-- Serialization of an all-scalar table: the sorted `key = value` lines and
nothing else. -/
theorem toToml_flat (d : Table) (hd : d ≠ [])
    (hvd : ∀ kv ∈ d, isDictV kv.2 = false) :
    toToml d 0 "" = joinNl ((sortKeys (d.map Prod.fst)).map (simpleLineOf d "")) := by
  unfold toToml
  rw [tableDepth_eq_zero d hvd]
  cases d with
  | nil => exact absurd rfl hd
  | cons e es =>
    simp only [toTomlF]
    have h1 : (e :: es).filter (fun x => !(isDictV x.2)) = e :: es :=
      List.filter_eq_self.mpr (fun kv hkv => by rw [hvd kv hkv]; rfl)
    have h2 : (e :: es).filter (fun x => isDictV x.2) = [] :=
      List.filter_eq_nil_iff.mpr (fun kv hkv => by simp [hvd kv hkv])
    unfold simpleKeysOf dictKeysOf
    rw [h1, h2]
    show joinNl (_ ++ (sortKeys []).flatMap _) = _
    rw [show sortKeys [] = [] from rfl]
    simp only [List.flatMap_nil, List.append_nil]
    rfl

theorem lookupT_graph (ks : List String) (g : String → CV) (k : String) (h : k ∈ ks) :
    lookupT (ks.map (fun x => (x, g x))) k = some (g k) := by
  induction ks with
  | nil => simp at h
  | cons a as ih =>
    by_cases ha : a = k
    · subst ha
      simp [lookupT]
    · have hm : k ∈ as := by
        rcases List.mem_cons.mp h with rfl | hm
        · exact absurd rfl ha
        · exact hm
      simp [lookupT, ha, ih hm]

theorem foldConsts_nil (d : Table) : foldConsts [] d = d := rfl

/-- C4, amended core: for every table with distinct lowercase-letter keys and
nonnegative integer values, serializing, re-parsing and serializing again
reproduces the first serialization. -/
theorem flat_roundtrip (d : Table) (h : flatOkB d = true) :
    serializeS (parseS (serializeS d)) = serializeS d := by
  by_cases hdnil : d = []
  · subst hdnil
    rfl
  have h' := h
  simp only [flatOkB, Bool.and_eq_true, List.all_eq_true] at h'
  have hnd : (d.map Prod.fst).Nodup := (keysNodupB_iff d).mp h'.1
  have hok : ∀ kv ∈ d, keyOkB kv.1 = true ∧ valOkB kv.2 = true := by
    intro kv hkv
    have h2 := h'.2 kv hkv
    simp only [Bool.and_eq_true] at h2
    exact h2
  have hdictf : ∀ kv ∈ d, isDictV kv.2 = false := by
    intro kv hkv
    have hvo := (hok kv hkv).2
    cases h2 : kv.2
    case vDict dd => rw [h2] at hvo; simp [valOkB] at hvo
    all_goals rfl
  set ks : List String := sortKeys (d.map Prod.fst) with hks
  have hksmem : ∀ k ∈ ks, k ∈ d.map Prod.fst := by
    intro k hk2
    exact (List.perm_insertionSort SLe (d.map Prod.fst)).subset hk2
  have hkmem : ∀ k ∈ ks, ∃ v, lookupT d k = some v ∧ (k, v) ∈ d := by
    intro k hk2
    have hc : containsKey d k = true := (containsKey_iff_mem d k).mpr (hksmem k hk2)
    obtain ⟨v, hv⟩ := Option.isSome_iff_exists.mp hc
    exact ⟨v, hv, (lookupT_some_iff d k v hnd).mp hv⟩
  have hkeyok : ∀ k ∈ ks, keyOkB k = true := by
    intro k hk2
    obtain ⟨v, _, hvd2⟩ := hkmem k hk2
    exact (hok (k, v) hvd2).1
  have hval : ∀ k ∈ ks, lookupT d k = some (CV.vInt (Int.ofNat (natAtKey d k))) := by
    intro k hk2
    obtain ⟨v, hv, hvd2⟩ := hkmem k hk2
    have hvo := (hok (k, v) hvd2).2
    cases v with
    | vInt m =>
      have hm : 0 ≤ m := by simpa [valOkB] using hvo
      rw [hv]
      unfold natAtKey
      rw [hv]
      simp [natOfV, Int.toNat_of_nonneg hm]
    | vStr s => simp [valOkB] at hvo
    | vFloat r => simp [valOkB] at hvo
    | vBool b => simp [valOkB] at hvo
    | vArr xs => simp [valOkB] at hvo
    | vDict dd => simp [valOkB] at hvo
  set ps : List (String × Nat) := ks.map (fun k => (k, natAtKey d k)) with hps
  have hps_fst : ps.map Prod.fst = ks := by
    rw [hps, List.map_map]
    exact List.map_id' ks
  have hks_nodup : ks.Nodup := (List.perm_insertionSort SLe (d.map Prod.fst)).symm.nodup hnd
  have hps_key : ∀ kv ∈ ps, keyOkB kv.1 = true := by
    intro kv hkv
    rw [hps] at hkv
    obtain ⟨k, hk2, rfl⟩ := List.mem_map.mp hkv
    exact hkeyok k hk2
  have hps_lines_eq : ps.map intLineOf = ks.map (fun k => intLineOf (k, natAtKey d k)) := by
    rw [hps, List.map_map]
    rfl
  -- Part A: first serialization = the flat lines.
  have hA : serializeS d = joinNl (ps.map intLineOf) := by
    unfold serializeS
    rw [toToml_flat d hdnil hdictf, ← hks, hps_lines_eq]
    apply congrArg joinNl
    apply List.map_congr_left
    intro k hk2
    unfold simpleLineOf intLineOf
    rw [hval k hk2]
    show "" ++ k ++ " = " ++ renderScalar (CV.vInt (Int.ofNat (natAtKey d k))) = _
    rw [empty_append_str]
    show k ++ " = " ++ intRepr (Int.ofNat (natAtKey d k)) = _
    unfold intRepr
    rw [if_neg (show ¬ Int.ofNat (natAtKey d k) < 0 from Int.not_lt.mpr (Int.ofNat_nonneg _))]
    rw [show (Int.ofNat (natAtKey d k)).toNat = natAtKey d k from Int.toNat_ofNat _]
  -- characters of the serialized text
  have hlchars : ∀ l ∈ ps.map intLineOf, ∀ c ∈ l.data, lineCharOk c := by
    intro l hl c hc
    obtain ⟨kv2, hkv2, rfl⟩ := List.mem_map.mp hl
    exact intLineOf_chars kv2 (hps_key kv2 hkv2) c hc
  have hlne : ∀ l ∈ ps.map intLineOf, l.data ≠ [] := by
    intro l hl
    obtain ⟨kv2, hkv2, rfl⟩ := List.mem_map.mp hl
    have hkok := keyOkB_chars kv2.1 (hps_key kv2 hkv2)
    obtain ⟨c0, tl0, hk0⟩ : ∃ c0 tl0, kv2.1.data = c0 :: tl0 := by
      cases hdk : kv2.1.data with
      | nil => exact absurd hdk hkok.1
      | cons a b => exact ⟨a, b, rfl⟩
    rw [intLineOf_data, hk0]
    simp
  have hllast : ∀ l ∈ ps.map intLineOf, ∃ c, l.data.getLast? = some c ∧
      48 ≤ c.toNat ∧ c.toNat ≤ 57 := by
    intro l hl
    obtain ⟨kv2, _, rfl⟩ := List.mem_map.mp hl
    obtain ⟨cl, hlast⟩ := exists_getLast? (natReprC kv2.2) (natReprC_ne_nil kv2.2)
    refine ⟨cl, ?_, (natReprC_mem kv2.2 cl (mem_of_getLast? _ _ hlast)).2⟩
    rw [intLineOf_data, List.getLast?_append_of_ne_nil _ (natReprC_ne_nil kv2.2)]
    exact hlast
  have hks_ne : ks ≠ [] := by
    intro he
    have hlen := List.length_insertionSort SLe (d.map Prod.fst)
    rw [hks] at he
    unfold sortKeys at he
    have h0 : (d.map Prod.fst).length = 0 := by rw [← hlen, he]; rfl
    exact hdnil (List.map_eq_nil_iff.mp (List.length_eq_zero.mp h0))
  have hps_ne : ps.map intLineOf ≠ [] := by
    intro he
    rw [List.map_eq_nil_iff, hps, List.map_eq_nil_iff] at he
    exact hks_ne he
  set text : String := joinNl (ps.map intLineOf) with htext
  have htdata : text.data = joinNlC ((ps.map intLineOf).map String.data) := rfl
  have htchars : ∀ c ∈ text.data, c = '\n' ∨ lineCharOk c := by
    intro c hc
    rw [htdata] at hc
    rcases mem_joinNlC _ c hc with h1 | ⟨l2, hl2, hc2⟩
    · exact Or.inl h1
    · obtain ⟨l3, hl3, rfl⟩ := List.mem_map.mp hl2
      exact Or.inr (hlchars l3 hl3 c hc2)
  have htnoparen : ∀ c ∈ text.data, c ≠ '(' := by
    intro c hc
    rcases htchars c hc with rfl | h2
    · decide
    · exact (lineCharOk_ne c h2).2.2.1
  have hclean : cleanedOf text = text := by
    unfold cleanedOf clean_text
    show String.mk (cleanC text.data) = text
    rw [htdata, cleanC_joinNlC _ (by simpa using hps_ne)]
    · rfl
    · intro l hl
      obtain ⟨l2, hl2, rfl⟩ := List.mem_map.mp hl
      refine ⟨hlne l2 hl2, fun c hc => (lineCharOk_ne c (hlchars l2 hl2 c hc)).1, ?_⟩
      unfold cleanLineC
      rw [truncHashC_eq_self _ (fun c hc => (lineCharOk_ne c (hlchars l2 hl2 c hc)).2.1)]
      obtain ⟨cl, hcl, hb⟩ := hllast l2 hl2
      exact rstripC_eq_self _ cl hcl (isPyWs_eq_false cl (by omega) (by omega))
  have hconsts : constantsOf text = [] := by
    unfold constantsOf
    rw [hclean]
    rw [show findDefinesC text.data = [] from findDefinesF_no_paren _ _ htnoparen]
    rfl
  have hstrippedOf : strippedOf text = text := by
    unfold strippedOf
    rw [hclean]
    show String.mk (defineSubC text.data) = text
    rw [show defineSubC text.data = text.data from defineSubF_no_paren _ _ htnoparen]
  have hlines : linesOf text = ps.map intLineOf := by
    unfold linesOf
    rw [hstrippedOf]
    rw [show splitNlC text.data = (ps.map intLineOf).map String.data from by
      rw [htdata]
      exact splitNlC_joinNlC _ (by simpa using hps_ne)
        (fun l hl c hc => by
          obtain ⟨l2, hl2, rfl⟩ := List.mem_map.mp hl
          exact (lineCharOk_ne c (hlchars l2 hl2 c hc)).1)]
    rw [List.map_map]
    have hmkid : List.map (String.mk ∘ String.data) (ps.map intLineOf)
        = List.map (fun l => l) (ps.map intLineOf) :=
      List.map_congr_left (fun l _ => rfl)
    rw [hmkid, List.map_id']
  have hroot : rootDataOf text
      = ps.map (fun kv => (kv.1, CV.vInt (Int.ofNat kv.2))) := by
    unfold rootDataOf
    rw [hconsts, hlines, List.length_map]
    rw [rootLoopF_flat [] ps [] hps_key (fun kv2 _ => rfl)
      (by rw [hps_fst]; exact hks_nodup)]
    simp
  have hparse : parseS text = ps.map (fun kv => (kv.1, CV.vInt (Int.ofNat kv.2))) := by
    unfold parseS
    rw [hconsts, hroot, foldConsts_nil]
  -- Part C: second serialization of the re-parsed flat table.
  have hC : serializeS (ps.map (fun kv => (kv.1, CV.vInt (Int.ofNat kv.2))))
      = joinNl (ps.map intLineOf) := by
    set d2 : Table := ps.map (fun kv => (kv.1, CV.vInt (Int.ofNat kv.2))) with hd2
    have hd2g : d2 = ks.map (fun k => (k, CV.vInt (Int.ofNat (natAtKey d k)))) := by
      rw [hd2, hps, List.map_map]
      rfl
    have hd2ne : d2 ≠ [] := by
      rw [hd2]
      intro he
      exact hps_ne (by rw [List.map_eq_nil_iff.mp he]; rfl)
    have hd2v : ∀ kv ∈ d2, isDictV kv.2 = false := by
      intro kv hkv
      rw [hd2] at hkv
      obtain ⟨kv0, _, rfl⟩ := List.mem_map.mp hkv
      rfl
    have hd2keys : d2.map Prod.fst = ks := by
      rw [hd2, List.map_map, show (Prod.fst ∘ fun kv : String × Nat =>
        (kv.1, CV.vInt (Int.ofNat kv.2))) = Prod.fst from rfl]
      exact hps_fst
    unfold serializeS
    rw [toToml_flat d2 hd2ne hd2v, hd2keys]
    have hsorted : List.Sorted SLe ks := by
      rw [hks]
      exact List.sorted_insertionSort SLe _
    rw [show sortKeys ks = ks from List.Sorted.insertionSort_eq hsorted]
    rw [hps_lines_eq]
    apply congrArg joinNl
    apply List.map_congr_left
    intro k hk2
    unfold simpleLineOf intLineOf
    rw [show lookupT d2 k = some (CV.vInt (Int.ofNat (natAtKey d k))) from by
      rw [hd2g]; exact lookupT_graph ks _ k hk2]
    show "" ++ k ++ " = " ++ renderScalar (CV.vInt (Int.ofNat (natAtKey d k))) = _
    rw [empty_append_str]
    show k ++ " = " ++ intRepr (Int.ofNat (natAtKey d k)) = _
    unfold intRepr
    rw [if_neg (show ¬ Int.ofNat (natAtKey d k) < 0 from Int.not_lt.mpr (Int.ofNat_nonneg _))]
    rw [show (Int.ofNat (natAtKey d k)).toNat = natAtKey d k from Int.toNat_ofNat _]
  calc serializeS (parseS (serializeS d))
      = serializeS (parseS text) := by rw [hA]
    _ = serializeS (ps.map (fun kv => (kv.1, CV.vInt (Int.ofNat kv.2)))) := by rw [hparse]
    _ = joinNl (ps.map intLineOf) := hC
    _ = serializeS d := hA.symm

/-- C4 amended: the claimed identity
`serialize(parse(serialize(parse(text)))) = serialize(parse(text))` fails in
general (see the counterexample), but holds for every input text whose parse
result is a flat table with distinct lowercase-letter keys and nonnegative
integer values. -/
theorem c4_flat_idempotence (t : String) (h : flatOkB (parseS t) = true) :
    serializeS (parseS (serializeS (parseS t))) = serializeS (parseS t) :=
  flat_roundtrip (parseS t) h

theorem c4_flat_idempotence_witness :
    flatOkB (parseS "b: 2\na: 1") = true ∧
      serializeS (parseS (serializeS (parseS "b: 2\na: 1")))
        = serializeS (parseS "b: 2\na: 1") ∧
      serializeS (parseS "b: 2\na: 1") = "a = 1\nb = 2" :=
  ⟨rfl, c4_flat_idempotence "b: 2\na: 1" rfl, rfl⟩

end ConfigDz
